import Mathlib

/-!
# BigCommerce category listing (categories.go)

A shallow embedding of `GetAllCategories`, `GetCategories` and
`getFullCategoryName` from `categories.go`, followed by theorems about them.

Conventions of the embedding.

* Go `int` and `int64` values are integers; the two counters the code
  increments (`page++`, `retries++`) wrap at 64 bits (`wrapInt`).
* Go `error` values are `Option GoError`, `none` being `nil`.
* The outside world (the HTTP client behind `bc.DefaultClient.Do`) is a state
  of an arbitrary type `σ` that every request reads and updates.
* `for more` may run for ever and `getFullCategoryName` may recurse for ever, so
  both take a fuel argument; `Run.outOfFuel` marks an execution that was cut off,
  `Run.panic` a Go run-time panic, `Run.done` a normal return.
-/

namespace bigcommerce

/-! ## Data model -/

/-- The anonymous struct of the `CustomURL` field of `Category`. -/
structure CustomURL where
  URL : String
  Customized : Bool
deriving DecidableEq, Repr

/-- Go struct `Category`: a BC category object. `FullName` and `URL` carry the
JSON tag `-`, the other fields come from the wire. -/
structure Category where
  ID : Int
  Name : String
  ParentID : Int
  Visible : Bool
  FullName : String
  CustomURL : CustomURL
  URL : String
deriving DecidableEq, Repr

/-- Go `error` values that can reach `categories.go`: package-level sentinel
values, values made by `fmt.Errorf`, and errors handed over by the HTTP client,
the body reader or the JSON decoder. -/
inductive GoError where
  | sentinel (name : String)
  | errorf (msg : String)
  | external (msg : String)
deriving DecidableEq, Repr

/-- Modelled from the spec: the package-level value `ErrNoContent`, declared
outside `categories.go`; the distinguished condition signalled on an HTTP
"no content" status. -/
def ErrNoContent : GoError := GoError.sentinel "ErrNoContent"

/-- The outcome of running a piece of Go code with a fuel bound. -/
inductive Run (α : Type) where
  | done (a : α)
  | panic (msg : String)
  | outOfFuel
deriving DecidableEq, Repr

/-- Two's-complement wrap-around of a 64-bit Go `int` after an increment. -/
def wrapInt (x : Int) : Int := (x + 2 ^ 63) % 2 ^ 64 - 2 ^ 63

/-! ## The ID index: Go `map[int64]int` -/

/-- A Go `map[int64]int`, as an association list in which the first entry of
a key is the live one. -/
abbrev GoMap := List (Int × Int)

/-- Go `m[k] = v`. -/
def GoMap.set (m : GoMap) (k v : Int) : GoMap := (k, v) :: m

/-- Go `m[k]` read as a value: the zero value `0` when the key is absent. -/
def GoMap.get (m : GoMap) (k : Int) : Int :=
  match m.lookup k with
  | some v => v
  | none => 0

/-- Go `_, ok := m[k]`: whether `k` is a key of the map. -/
def GoMap.has (m : GoMap) (k : Int) : Bool := (m.lookup k).isSome

/-- Go `cs[i]` with its bounds check: `none` when `i` is out of range (the
run-time panics). -/
def index (cs : List Category) (i : Int) : Option Category :=
  if 0 ≤ i then cs[i.toNat]? else none

/-! ## `getFullCategoryName` (lines 105-110) -/

/-- Go `getFullCategoryName(cs, i, extidmap)`; `fuel` bounds the recursion
depth. -/
def getFullCategoryName (cs : List Category) (extidmap : GoMap) :
    Nat → Int → Run String
  | 0, _ => Run.outOfFuel
  | fuel + 1, i =>
    match index cs i with
    | none => Run.panic "index out of range"
    | some c =>
      if c.ParentID = 0 then Run.done c.Name
      else
        match getFullCategoryName cs extidmap fuel (extidmap.get c.ParentID) with
        | Run.done s => Run.done (s ++ " > " ++ c.Name)
        | Run.panic msg => Run.panic msg
        | Run.outOfFuel => Run.outOfFuel

/-! ## Post-processing of `GetAllCategories` (lines 49-57) -/

/-- The loop `for i, c := range cs { extidmap[c.ID] = i }`, started at position
`i` with the map `m`. -/
def buildIndex : List Category → Nat → GoMap → GoMap
  | [], _, m => m
  | c :: rest, i, m => buildIndex rest (i + 1) (m.set c.ID (i : Int))

/-- Go `cs[i].f = ...` for an in-range `i`: the element at position `i` is
replaced by its image under `f`. -/
def updateAt (cs : List Category) (i : Nat) (f : Category → Category) :
    List Category :=
  match cs[i]? with
  | some c => cs.set i (f c)
  | none => cs

/-- The loop `for i := range cs` of lines 53-57 with `n` positions left, the
next one being `i`: it sets `cs[i].URL`, then `cs[i].FullName`, in place. -/
def decorateFrom (extidmap : GoMap) (fuel : Nat) :
    Nat → Nat → List Category → Run (List Category)
  | 0, _, cs => Run.done cs
  | n + 1, i, cs =>
    let cs1 := updateAt cs i (fun c => { c with URL := c.CustomURL.URL })
    match getFullCategoryName cs1 extidmap fuel (i : Int) with
    | Run.done name =>
      decorateFrom extidmap fuel n (i + 1)
        (updateAt cs1 i (fun c => { c with FullName := name }))
    | Run.panic msg => Run.panic msg
    | Run.outOfFuel => Run.outOfFuel

/-- Lines 49-57: build the ID index of `cs`, then decorate every item. -/
def postProcess (fuel : Nat) (cs : List Category) : Run (List Category) :=
  decorateFrom (buildIndex cs 0 []) fuel cs.length 0 cs

/-! ## The pagination loop of `GetAllCategories` (lines 30-48) -/

/-- What one call of the page fetcher returns: Go `([]Category, bool, error)`. -/
structure FetchResult where
  items : List Category
  more : Bool
  err : Option GoError
deriving DecidableEq, Repr

/-- One entry of the call record: the page number passed to the fetcher and
what the fetcher answered. -/
structure Call where
  page : Int
  result : FetchResult
deriving DecidableEq, Repr

/-- What `GetAllCategories` hands back, with the world it leaves behind, the
record of its fetcher calls and the errors it printed with `log.Println`. -/
structure Outcome (σ : Type) where
  cs : List Category
  err : Option GoError
  world : σ
  calls : List Call
  logged : List GoError

/-- The local variables of `GetAllCategories` during the loop, with the world
and the two records. -/
structure Vars (σ : Type) where
  cs : List Category
  page : Int
  more : Bool
  err : Option GoError
  retries : Int
  world : σ
  calls : List Call
  logged : List GoError

/-- How the loop is left: by the `return` of line 42, or by falling out of it
(`break`, or `more` false) towards line 49. -/
inductive LoopExit (σ : Type) where
  | returned (out : Outcome σ)
  | fellOut (out : Outcome σ)

/-- The loop `for more { ... }` of lines 36-48 over a page fetcher `fetch`. -/
def pageLoop {σ : Type} (fetch : σ → Int → FetchResult × σ) (MaxRetries : Int) :
    Nat → Vars σ → Run (LoopExit σ)
  | 0, _ => Run.outOfFuel
  | fuel + 1, v =>
    if v.more then
      let r := fetch v.world v.page
      let calls := v.calls ++ [Call.mk v.page r.1]
      match r.1.err with
      | some e =>
        let logged := v.logged ++ [e]
        let retries := wrapInt (v.retries + 1)
        if retries > MaxRetries then
          Run.done (LoopExit.returned
            ⟨v.cs, some (GoError.errorf "max retries reached"), r.2, calls, logged⟩)
        else
          Run.done (LoopExit.fellOut ⟨v.cs, some e, r.2, calls, logged⟩)
      | none =>
        pageLoop fetch MaxRetries fuel
          ⟨v.cs ++ r.1.items, wrapInt (v.page + 1), r.1.more, none, v.retries, r.2,
            calls, v.logged⟩
    else
      Run.done (LoopExit.fellOut ⟨v.cs, v.err, v.world, v.calls, v.logged⟩)

/-- The variables at line 36: `cs := []Category{}`, `page := 1`,
`more := true`, `err` nil, `retries := 0`. -/
def initVars {σ : Type} (s : σ) : Vars σ := ⟨[], 1, true, none, 0, s, [], []⟩

/-- Go `GetAllCategories` over an arbitrary page fetcher `fetch` standing for
`bc.GetCategories(context, xAuthToken, ·)`, with `bc.MaxRetries` given. -/
def GetAllCategoriesVia {σ : Type} (fetch : σ → Int → FetchResult × σ)
    (MaxRetries : Int) (fuel : Nat) (s : σ) : Run (Outcome σ) :=
  match pageLoop fetch MaxRetries fuel (initVars s) with
  | Run.done (LoopExit.returned out) => Run.done out
  | Run.done (LoopExit.fellOut out) =>
    match postProcess fuel out.cs with
    | Run.done cs => Run.done ⟨cs, out.err, out.world, out.calls, out.logged⟩
    | Run.panic msg => Run.panic msg
    | Run.outOfFuel => Run.outOfFuel
  | Run.panic msg => Run.panic msg
  | Run.outOfFuel => Run.outOfFuel

/-! ## `GetCategories` (lines 65-103) -/

/-- An HTTP response as `GetCategories` sees it: the status code and what
`ioutil.ReadAll(res.Body)` yields. -/
structure Response where
  StatusCode : Int
  Body : Except GoError String

/-- The struct `pp.Meta.Pagination` of lines 87-95. -/
structure Pagination where
  Total : Int
  Count : Int
  PerPage : Int
  CurrentPage : Int
  TotalPages : Int
  Links : Option String
  TooMany : Bool

/-- The struct `pp.Meta` of lines 86-96. -/
structure Meta where
  Pagination : Pagination

/-- The decoded envelope `pp` of lines 84-97. -/
structure Envelope where
  Data : List Category
  Meta : Meta

/-- The receiver `bc`: the two fields `categories.go` reads, and the method
`getAPIRequest(method, url, xAuthToken, nil)`, which is declared outside
`categories.go` and is taken as given. `DefaultClient` is `bc.DefaultClient.Do`:
it answers a request with an error or a response and moves the world on. -/
structure BigCommerce (σ Req : Type) where
  MaxRetries : Int
  DefaultClient : σ → Req → Except GoError Response × σ
  getAPIRequest : String → String → String → Req

/-- Go `http.StatusNoContent`. -/
def StatusNoContent : Int := 204

/-- Go `http.MethodGet`. -/
def MethodGet : String := "GET"

/-- Lines 66-68: the request for one page; `toString` on integers is
`strconv.Itoa`. -/
def pageRequest {σ Req : Type} (bc : BigCommerce σ Req)
    (context xAuthToken : String) (page : Int) : Req :=
  let url := context ++
    "/v3/catalog/categories?include_fields=name,parent_id,is_visible,custom_url&page="
    ++ toString page
  bc.getAPIRequest MethodGet url xAuthToken

/-- Go `GetCategories(context, xAuthToken, page)` run in world `s`;
`unmarshal` is `json.Unmarshal` into the envelope. -/
def GetCategories {σ Req : Type} (bc : BigCommerce σ Req)
    (unmarshal : String → Except GoError Envelope)
    (context xAuthToken : String) (s : σ) (page : Int) : FetchResult × σ :=
  match bc.DefaultClient s (pageRequest bc context xAuthToken page) with
  | (Except.error err, s1) => (⟨[], false, some err⟩, s1)
  | (Except.ok res, s1) =>
    if res.StatusCode = StatusNoContent then (⟨[], false, some ErrNoContent⟩, s1)
    else
      match res.Body with
      | Except.error err => (⟨[], false, some err⟩, s1)
      | Except.ok body =>
        match unmarshal body with
        | Except.error err => (⟨[], false, some err⟩, s1)
        | Except.ok pp =>
          (⟨pp.Data,
            decide (pp.Meta.Pagination.CurrentPage < pp.Meta.Pagination.TotalPages),
            none⟩, s1)

/-- Go `GetAllCategories(context, xAuthToken)` run in world `s`. -/
def GetAllCategories {σ Req : Type} (bc : BigCommerce σ Req)
    (unmarshal : String → Except GoError Envelope)
    (context xAuthToken : String) (fuel : Nat) (s : σ) : Run (Outcome σ) :=
  GetAllCategoriesVia (GetCategories bc unmarshal context xAuthToken)
    bc.MaxRetries fuel s

/-- The values in hand when the loop is left, whichever way. -/
def LoopExit.out {σ : Type} : LoopExit σ → Outcome σ
  | LoopExit.returned o => o
  | LoopExit.fellOut o => o

/-- The loop variables after an iteration whose fetch returned no error:
lines 37, 46 and 47. -/
def nextVars {σ : Type} (fetch : σ → Int → FetchResult × σ) (v : Vars σ) : Vars σ :=
  ⟨v.cs ++ (fetch v.world v.page).1.items, wrapInt (v.page + 1),
    (fetch v.world v.page).1.more, none, v.retries, (fetch v.world v.page).2,
    v.calls ++ [Call.mk v.page (fetch v.world v.page).1], v.logged⟩

/-- The loop states a run passes through from `v0`: `v0` itself, and the state
after every iteration that is entered with `more` true and whose fetch returns
no error. An iteration whose fetch fails leaves the loop. -/
inductive Visits {σ : Type} (fetch : σ → Int → FetchResult × σ) (v0 : Vars σ) :
    Vars σ → Prop where
  | start : Visits fetch v0 v0
  | next (v : Vars σ) : Visits fetch v0 v → v.more = true →
      (fetch v.world v.page).1.err = none → Visits fetch v0 (nextVars fetch v)

/-! ## Hierarchies, as the specification speaks of them -/

/-- Every parent chain that starts at `c` reaches a root: `c` is a root, or
its `ParentID` is the ID of some item of the list and every item with that ID
is grounded in turn. -/
inductive Grounded (cs : List Category) : Category → Prop where
  | root (c : Category) : c.ParentID = 0 → Grounded cs c
  | step (c : Category) : c.ParentID ≠ 0 → (∃ p ∈ cs, p.ID = c.ParentID) →
      (∀ p ∈ cs, p.ID = c.ParentID → Grounded cs p) → Grounded cs c

/-- The fact `Ancestry cs c chain` says that `chain` lists the ancestors of `c`
among the items of `cs`, from a root (an item with `ParentID` 0) down to `c`
itself, each one the parent of the next. -/
inductive Ancestry (cs : List Category) : Category → List Category → Prop where
  | root (c : Category) : c ∈ cs → c.ParentID = 0 → Ancestry cs c [c]
  | child (c p : Category) (chain : List Category) : c ∈ cs → c.ParentID ≠ 0 →
      p.ID = c.ParentID → Ancestry cs p chain → Ancestry cs c (chain ++ [c])

/-- The walk of `getFullCategoryName` from position `i` through the map `m`
ends at an item with `ParentID` 0 without leaving the list. -/
inductive WalkEnds (cs : List Category) (m : GoMap) : Int → Prop where
  | root (i : Int) (c : Category) : index cs i = some c → c.ParentID = 0 →
      WalkEnds cs m i
  | step (i : Int) (c : Category) : index cs i = some c → c.ParentID ≠ 0 →
      WalkEnds cs m (m.get c.ParentID) → WalkEnds cs m i

/-- The position `getFullCategoryName` recurses to from position `i`: the
index entry of the `ParentID` found there. -/
def parentPos (cs : List Category) (m : GoMap) (i : Int) : Int :=
  match index cs i with
  | some c => m.get c.ParentID
  | none => i

/-- Within `cs`, the item `p` is a parent of the item `c`: `c` has a non-zero
`ParentID` and `p` carries it as its ID. -/
def IsParentOf (cs : List Category) (c p : Category) : Prop :=
  c ∈ cs ∧ p ∈ cs ∧ c.ParentID ≠ 0 ∧ p.ID = c.ParentID

/-- The two fields of an item that `getFullCategoryName` reads. -/
def nameKey (c : Category) : String × Int := (c.Name, c.ParentID)

/-- An item after lines 54-56: `URL` copied from `CustomURL.URL`, `FullName`
set to `name`, the wire fields untouched. -/
def decorateItem (c : Category) (name : String) : Category :=
  { c with URL := c.CustomURL.URL, FullName := name }

/-- The wire fields of an item: `ID`, `Name`, `ParentID`, `Visible`,
`CustomURL`. -/
def wire (c : Category) : Int × String × Int × Bool × CustomURL :=
  (c.ID, c.Name, c.ParentID, c.Visible, c.CustomURL)

/-! ## Page fetchers, as the specification speaks of them -/

/-- Started in world `s`, the fetcher answers the requests for pages `p`,
`p + 1`, ... in turn with the given item lists, each time without error and
with `more = true`. -/
def ServesMore {σ : Type} (fetch : σ → Int → FetchResult × σ) :
    σ → Int → List (List Category) → Prop
  | _, _, [] => True
  | s, p, items :: rest =>
    (fetch s p).1 = ⟨items, true, none⟩ ∧ ServesMore fetch (fetch s p).2 (p + 1) rest

/-- The world after `n` successive requests, for pages `p`, `p + 1`, ... -/
def worldAfter {σ : Type} (fetch : σ → Int → FetchResult × σ) : σ → Int → Nat → σ
  | s, _, 0 => s
  | s, p, n + 1 => worldAfter fetch (fetch s p).2 (p + 1) n

/-- The call record of the requests that `ServesMore` describes. -/
def callsFor : Int → List (List Category) → List Call
  | _, [] => []
  | p, items :: rest => Call.mk p ⟨items, true, none⟩ :: callsFor (p + 1) rest

/-- The page numbers `1, 2, ..., n` as Go `int` values. -/
def pageNumbers (n : Nat) : List Int := (List.range' 1 n).map (fun (k : Nat) => (k : Int))

/-- The name `getFullCategoryName` returns for position `j`, and the empty
string when it returns none. -/
def resolvedName (cs : List Category) (m : GoMap) (fuel : Nat) (j : Nat) : String :=
  match getFullCategoryName cs m fuel (j : Int) with
  | Run.done name => name
  | _ => ""

/-! ## Sample data -/

/-- A root category as the JSON decoder delivers it. -/
def shoes : Category := ⟨1, "Shoes", 0, true, "", ⟨"/shoes/", false⟩, ""⟩

/-- A child of `shoes` as the JSON decoder delivers it. -/
def running : Category := ⟨2, "Running", 1, true, "", ⟨"/shoes/running/", true⟩, ""⟩

/-- A catalog of two pages, `[shoes]` then `[running]`; the world counts the
requests served. -/
def twoPages (s : Nat) (page : Int) : FetchResult × Nat :=
  if page = 1 then (⟨[shoes], true, none⟩, s + 1)
  else if page = 2 then (⟨[running], false, none⟩, s + 1)
  else (⟨[], false, some (GoError.external "no such page")⟩, s + 1)

/-- A category that names itself as its parent. -/
def selfParent : Category := ⟨7, "Loop", 7, true, "", ⟨"/loop/", false⟩, ""⟩

/-- A fetcher whose every request fails. -/
def alwaysFails (s : Unit) (_ : Int) : FetchResult × Unit :=
  (⟨[], false, some (GoError.external "connection refused")⟩, s)

/-- A fetcher that serves page 1 as `[shoes]` with `more = true` and fails on
every other page. -/
def pageThenFail (s : Nat) (page : Int) : FetchResult × Nat :=
  if page = 1 then (⟨[shoes], true, none⟩, s + 1)
  else (⟨[], false, some (GoError.external "connection reset")⟩, s + 1)

/-- A fetcher that serves page 1 as `[selfParent]` with `more = true` and fails
on every other page. -/
def cyclicThenFail (s : Unit) (page : Int) : FetchResult × Unit :=
  if page = 1 then (⟨[selfParent], true, none⟩, s)
  else (⟨[], false, some (GoError.external "connection reset")⟩, s)

/-- A fetcher for an empty catalog. -/
def emptyCatalog (s : Unit) (_ : Int) : FetchResult × Unit :=
  (⟨[], false, none⟩, s)

/-- A category whose parent is not in the catalog. -/
def orphan : Category := ⟨3, "Sale", 99, true, "", ⟨"/sale/", false⟩, ""⟩

/-- A store whose client answers every request with status 204 and a stray
body; requests are the method and the URL. -/
def noContentStore : BigCommerce Nat String :=
  ⟨0, fun s _ => (Except.ok ⟨204, Except.ok "stray body"⟩, s + 1),
    fun method url _ => method ++ " " ++ url⟩

/-- A decoder that rejects every body. -/
def rejectAll (_ : String) : Except GoError Envelope :=
  Except.error (GoError.external "unexpected end of JSON input")

/-- A store with `MaxRetries` left at its zero value, whose client answers the
first request with a readable body and fails every later request. -/
def shoeStore : BigCommerce Nat String :=
  ⟨0,
    fun s _ =>
      if s = 0 then (Except.ok ⟨200, Except.ok "page 1 of 2"⟩, s + 1)
      else (Except.error (GoError.external "connection reset"), s + 1),
    fun method url _ => method ++ " " ++ url⟩

/-- A decoder that reads the body of `shoeStore` as the page `[shoes]` with
`current_page = 1` and `total_pages = 2`, and rejects every other body. -/
def decodeShoes (body : String) : Except GoError Envelope :=
  if body = "page 1 of 2" then Except.ok ⟨[shoes], ⟨⟨2, 1, 1, 1, 2, none, false⟩⟩⟩
  else Except.error (GoError.external "invalid character")

/-- A root category that carries the same ID as `shoes`. -/
def clogs : Category := ⟨1, "Clogs", 0, true, "", ⟨"/clogs/", false⟩, ""⟩

/-- How the loop over `pageThenFail` is left with `MaxRetries = 1`: by the
`break`, after a served page 1 and a failed page 2. -/
def brokenExit : LoopExit Nat :=
  LoopExit.fellOut ⟨[shoes], some (GoError.external "connection reset"), 2,
    [Call.mk 1 ⟨[shoes], true, none⟩,
      Call.mk 2 ⟨[], false, some (GoError.external "connection reset")⟩],
    [GoError.external "connection reset"]⟩

/-! ## Auxiliary facts: the ID index -/

theorem GoMap.get_set (m : GoMap) (k v k2 : Int) :
    (m.set k v).get k2 = if k2 = k then v else m.get k2 := by
  unfold GoMap.get GoMap.set
  by_cases h : k2 = k
  · subst h; simp [List.lookup]
  · have hb : (k2 == k) = false := by simpa using h
    simp [List.lookup, hb, h]

theorem buildIndex_get_absent (cs : List Category) (k : Int)
    (habs : ∀ c ∈ cs, c.ID ≠ k) (i : Nat) (m : GoMap) :
    (buildIndex cs i m).get k = m.get k := by
  induction cs generalizing i m with
  | nil => rfl
  | cons c rest ih =>
    have hc : c.ID ≠ k := habs c (List.mem_cons_self _ _)
    have hrest : ∀ d ∈ rest, d.ID ≠ k := fun d hd => habs d (List.mem_cons_of_mem _ hd)
    rw [buildIndex, ih hrest, GoMap.get_set]
    simp [Ne.symm hc]

/-- The index maps an ID that occurs in the list to the greatest position
holding it. -/
theorem buildIndex_get_present (cs : List Category) (k : Int)
    (hpres : ∃ c ∈ cs, c.ID = k) (i : Nat) (m : GoMap) :
    ∃ j c, cs[j]? = some c ∧ c.ID = k ∧
      (buildIndex cs i m).get k = ((i + j : Nat) : Int) ∧
      ∀ j2 d, j < j2 → cs[j2]? = some d → d.ID ≠ k := by
  induction cs generalizing i m with
  | nil => simp at hpres
  | cons c rest ih =>
    by_cases hrest : ∃ d ∈ rest, d.ID = k
    · obtain ⟨j, d, hj, hd, hget, hlast⟩ := ih hrest (i + 1) (m.set c.ID (i : Int))
      refine ⟨j + 1, d, by simpa using hj, hd, ?_, ?_⟩
      · rw [buildIndex, hget]; congr 1; omega
      · intro j2 e hlt he
        cases j2 with
        | zero => omega
        | succ j3 => exact hlast j3 e (by omega) (by simpa using he)
    · have habs : ∀ d ∈ rest, d.ID ≠ k := fun d hd hk => hrest ⟨d, hd, hk⟩
      have hc : c.ID = k := by
        obtain ⟨d, hd, hk⟩ := hpres
        rcases List.mem_cons.mp hd with h | h
        · rw [← h]; exact hk
        · exact absurd hk (habs d h)
      refine ⟨0, c, by simp, hc, ?_, ?_⟩
      · rw [buildIndex, buildIndex_get_absent rest k habs, GoMap.get_set]
        simp [hc]
      · intro j2 e hlt he
        cases j2 with
        | zero => omega
        | succ j3 =>
          have : e ∈ rest := List.getElem?_mem (by simpa using he)
          exact habs e this

theorem index_natCast (cs : List Category) (j : Nat) :
    index cs (j : Int) = cs[j]? := by
  simp [index]

/-- Every value the index hands out for a non-empty list is an in-range
position: the zero value of an absent key is position 0. -/
theorem index_buildIndex_get (cs : List Category) (hne : cs ≠ []) (k : Int) :
    ∃ (j : Nat) (c : Category),
      (buildIndex cs 0 []).get k = (j : Int) ∧ cs[j]? = some c := by
  by_cases hpres : ∃ c ∈ cs, c.ID = k
  · obtain ⟨j, c, hj, _, hget, _⟩ := buildIndex_get_present cs k hpres 0 []
    exact ⟨j, c, by simpa using hget, hj⟩
  · have habs : ∀ c ∈ cs, c.ID ≠ k := fun c hc hk => hpres ⟨c, hc, hk⟩
    cases cs with
    | nil => exact absurd rfl hne
    | cons c rest =>
      refine ⟨0, c, ?_, List.getElem?_cons_zero⟩
      rw [buildIndex_get_absent _ k habs]; rfl

/-! ## Auxiliary facts: name resolution -/

theorem getFullCategoryName_congr (cs cs2 : List Category) (m : GoMap)
    (h : ∀ j : Nat, (cs[j]?).map nameKey = (cs2[j]?).map nameKey)
    (fuel : Nat) (i : Int) :
    getFullCategoryName cs m fuel i = getFullCategoryName cs2 m fuel i := by
  induction fuel generalizing i with
  | zero => rfl
  | succ fuel ih =>
    have hidx : (index cs i).map nameKey = (index cs2 i).map nameKey := by
      unfold index
      split
      · exact h _
      · rfl
    simp only [getFullCategoryName]
    cases h1 : index cs i with
    | none =>
      cases h2 : index cs2 i with
      | none => rfl
      | some c2 => rw [h1, h2] at hidx; simp at hidx
    | some c =>
      cases h2 : index cs2 i with
      | none => rw [h1, h2] at hidx; simp at hidx
      | some c2 =>
        rw [h1, h2] at hidx
        simp only [Option.map_some', Option.some.injEq, nameKey, Prod.mk.injEq] at hidx
        simp only [hidx.1, hidx.2, ih]

theorem getFullCategoryName_succ (cs : List Category) (m : GoMap) (fuel : Nat)
    (i : Int) (name : String)
    (h : getFullCategoryName cs m fuel i = Run.done name) :
    getFullCategoryName cs m (fuel + 1) i = Run.done name := by
  induction fuel generalizing i name with
  | zero => simp [getFullCategoryName] at h
  | succ fuel ih =>
    rw [getFullCategoryName] at h
    rw [getFullCategoryName]
    cases hc : index cs i with
    | none => rw [hc] at h; simp at h
    | some c =>
      rw [hc] at h
      simp only at h ⊢
      by_cases hp : c.ParentID = 0
      · simpa [hp] using h
      · simp only [hp, if_false] at h ⊢
        cases hr : getFullCategoryName cs m fuel (m.get c.ParentID) with
        | done s => rw [hr] at h; rw [ih _ _ hr]; exact h
        | panic msg => rw [hr] at h; simp at h
        | outOfFuel => rw [hr] at h; simp at h

theorem getFullCategoryName_mono (cs : List Category) (m : GoMap) (fuel fuel2 : Nat)
    (i : Int) (name : String) (hle : fuel ≤ fuel2)
    (h : getFullCategoryName cs m fuel i = Run.done name) :
    getFullCategoryName cs m fuel2 i = Run.done name := by
  induction hle with
  | refl => exact h
  | step _ ih => exact getFullCategoryName_succ cs m _ i name ih

theorem WalkEnds.resolves {cs : List Category} {m : GoMap} {i : Int}
    (h : WalkEnds cs m i) :
    ∃ n name, ∀ fuel, n ≤ fuel → getFullCategoryName cs m fuel i = Run.done name := by
  induction h with
  | root i c hi hroot =>
    refine ⟨1, c.Name, fun fuel hf => ?_⟩
    obtain ⟨f, rfl⟩ : ∃ f, fuel = f + 1 := ⟨fuel - 1, by omega⟩
    simp [getFullCategoryName, hi, hroot]
  | step i c hi hne _ ih =>
    obtain ⟨n, name, hn⟩ := ih
    refine ⟨n + 1, name ++ " > " ++ c.Name, fun fuel hf => ?_⟩
    obtain ⟨f, rfl⟩ : ∃ f, fuel = f + 1 := ⟨fuel - 1, by omega⟩
    simp [getFullCategoryName, hi, hne, hn f (by omega)]

/-- One fuel bound serves every position of the list at once. -/
theorem resolves_uniform (cs : List Category) (m : GoMap)
    (h : ∀ j : Nat, j < cs.length → ∃ n name, ∀ fuel, n ≤ fuel →
      getFullCategoryName cs m fuel (j : Int) = Run.done name) :
    ∃ n, ∀ fuel, n ≤ fuel → ∀ j : Nat, j < cs.length →
      ∃ name, getFullCategoryName cs m fuel (j : Int) = Run.done name := by
  have key : ∀ k, k ≤ cs.length → ∃ n, ∀ fuel, n ≤ fuel → ∀ j : Nat, j < k →
      ∃ name, getFullCategoryName cs m fuel (j : Int) = Run.done name := by
    intro k
    induction k with
    | zero => intro _; exact ⟨0, fun _ _ j hj => absurd hj (Nat.not_lt_zero j)⟩
    | succ k ih =>
      intro hk
      obtain ⟨n1, h1⟩ := ih (by omega)
      obtain ⟨n2, name, h2⟩ := h k (by omega)
      refine ⟨max n1 n2, fun fuel hf j hj => ?_⟩
      by_cases hjk : j = k
      · subst hjk; exact ⟨name, h2 fuel (le_trans (le_max_right _ _) hf)⟩
      · exact h1 fuel (le_trans (le_max_left _ _) hf) j (by omega)
  exact key cs.length (le_refl _)

theorem resolves_all (cs : List Category) (m : GoMap)
    (h : ∀ j : Nat, j < cs.length → WalkEnds cs m (j : Int)) :
    ∃ n, ∀ fuel, n ≤ fuel → ∀ j : Nat, j < cs.length →
      ∃ name, getFullCategoryName cs m fuel (j : Int) = Run.done name :=
  resolves_uniform cs m (fun j hj => (h j hj).resolves)

theorem Grounded.walkEnds {cs : List Category} {c : Category} (h : Grounded cs c) :
    ∀ j : Nat, cs[j]? = some c → WalkEnds cs (buildIndex cs 0 []) (j : Int) := by
  induction h with
  | root c hroot =>
    intro j hj
    exact WalkEnds.root _ c (by rw [index_natCast]; exact hj) hroot
  | step c hne hex _ ih =>
    intro j hj
    obtain ⟨j2, p, hj2, hp, hget, _⟩ := buildIndex_get_present cs c.ParentID hex 0 []
    refine WalkEnds.step _ c (by rw [index_natCast]; exact hj) hne ?_
    rw [hget]
    simpa using ih p (List.getElem?_mem hj2) hp j2 hj2

/-! ## Auxiliary facts: the decoration loop -/

theorem getElem?_updateAt (cs : List Category) (i : Nat) (f : Category → Category)
    (j : Nat) :
    (updateAt cs i f)[j]? = if j = i then (cs[j]?).map f else cs[j]? := by
  unfold updateAt
  cases hc : cs[i]? with
  | none =>
    by_cases hji : j = i
    · subst hji; simp [hc]
    · simp [hji]
  | some c =>
    by_cases hji : j = i
    · subst hji
      have hlt : j < cs.length := (List.getElem?_eq_some.mp hc).1
      simp [hc, List.getElem?_set_self, hlt]
    · simp [hji, List.getElem?_set_ne (Ne.symm hji)]

theorem decorateFrom_spec (m : GoMap) (fuel : Nat) (orig : List Category)
    (nameOf : Nat → String)
    (hres : ∀ j : Nat, j < orig.length →
      getFullCategoryName orig m fuel (j : Int) = Run.done (nameOf j)) :
    ∀ (n i : Nat) (cur : List Category), i + n = orig.length →
      (∀ j : Nat, cur[j]? =
        (orig[j]?).map (fun c => if j < i then decorateItem c (nameOf j) else c)) →
      ∃ out, decorateFrom m fuel n i cur = Run.done out ∧
        ∀ j : Nat, out[j]? = (orig[j]?).map (fun c => decorateItem c (nameOf j)) := by
  intro n
  induction n with
  | zero =>
    intro i cur hlen hinv
    refine ⟨cur, rfl, fun j => ?_⟩
    rw [hinv j]
    cases hj : orig[j]? with
    | none => rfl
    | some c =>
      have hlt : j < orig.length := (List.getElem?_eq_some.mp hj).1
      have : j < i := by omega
      simp [this]
  | succ n ih =>
    intro i cur hlen hinv
    have hkey : ∀ j : Nat,
        ((updateAt cur i (fun c => { c with URL := c.CustomURL.URL }))[j]?).map nameKey
          = (orig[j]?).map nameKey := by
      intro j
      rw [getElem?_updateAt, hinv j]
      cases hj : orig[j]? with
      | none => simp
      | some c =>
        by_cases h1 : j = i
        · simp [h1, nameKey]
        · by_cases h2 : j < i
          · simp [h1, h2, nameKey, decorateItem]
          · simp [h1, h2]
    rw [decorateFrom]
    rw [getFullCategoryName_congr _ orig m hkey, hres i (by omega)]
    apply ih (i + 1) _ (by omega)
    intro j
    rw [getElem?_updateAt, getElem?_updateAt, hinv j]
    cases hj : orig[j]? with
    | none => simp
    | some c =>
      by_cases h1 : j = i
      · subst h1
        simp [decorateItem]
      · by_cases h2 : j < i
        · have : j < i + 1 := by omega
          simp [h1, h2, this]
        · have : ¬ j < i + 1 := by omega
          simp [h1, h2, this]

theorem length_eq_of_getElem?_map {α β : Type} (out : List β) (orig : List α)
    (f : Nat → α → β) (h : ∀ j : Nat, out[j]? = (orig[j]?).map (f j)) :
    out.length = orig.length := by
  rcases Nat.lt_trichotomy out.length orig.length with hlt | heq | hgt
  · have h1 := h out.length
    rw [List.getElem?_eq_none (le_refl _), List.getElem?_eq_getElem hlt] at h1
    simp at h1
  · exact heq
  · have h1 := h orig.length
    rw [List.getElem?_eq_none (le_refl _), List.getElem?_eq_getElem hgt] at h1
    simp at h1

/-- When every position resolves to a name with the given fuel, the
post-processing returns the list with every item decorated in place. -/
theorem postProcess_spec (fuel : Nat) (cs : List Category) (nameOf : Nat → String)
    (hres : ∀ j : Nat, j < cs.length →
      getFullCategoryName cs (buildIndex cs 0 []) fuel (j : Int) = Run.done (nameOf j)) :
    ∃ out, postProcess fuel cs = Run.done out ∧ out.length = cs.length ∧
      ∀ j : Nat, out[j]? = (cs[j]?).map (fun c => decorateItem c (nameOf j)) := by
  obtain ⟨out, hout, hspec⟩ :=
    decorateFrom_spec (buildIndex cs 0 []) fuel cs nameOf hres cs.length 0 cs
      (by omega) (fun j => by simp)
  exact ⟨out, hout, length_eq_of_getElem?_map out cs _ hspec, hspec⟩

/-! ## Auxiliary facts: the pagination loop -/

theorem wrapInt_succ (p : Int) (h0 : 0 ≤ p) (h1 : p + 1 < 2 ^ 63) :
    wrapInt (p + 1) = p + 1 := by
  unfold wrapInt
  omega

theorem callsFor_pages (a : Nat) (pages : List (List Category)) :
    (callsFor (a : Int) pages).map Call.page
      = (List.range' a pages.length).map (fun (k : Nat) => (k : Int)) := by
  induction pages generalizing a with
  | nil => rfl
  | cons items rest ih =>
    have := ih (a + 1)
    simp only [Nat.cast_add, Nat.cast_one] at this
    simp [callsFor, List.range'_succ, this]

theorem callsFor_ok (p : Int) (pages : List (List Category)) :
    ∀ c ∈ callsFor p pages, c.result.err = none := by
  induction pages generalizing p with
  | nil => simp [callsFor]
  | cons items rest ih =>
    intro c hc
    simp only [callsFor, List.mem_cons] at hc
    rcases hc with h | h
    · rw [h]
    · exact ih _ c h

/-- While the fetcher serves pages with `more = true`, the loop requests them
one after the other and appends their items. -/
theorem pageLoop_serves {σ : Type} (fetch : σ → Int → FetchResult × σ)
    (MaxRetries : Int) (pages : List (List Category)) :
    ∀ (cs : List Category) (p retries : Int) (s : σ) (calls : List Call)
      (logged : List GoError) (fuel : Nat),
      ServesMore fetch s p pages → 0 ≤ p → p + pages.length < 2 ^ 63 →
      pageLoop fetch MaxRetries (fuel + pages.length)
          ⟨cs, p, true, none, retries, s, calls, logged⟩
        = pageLoop fetch MaxRetries fuel
          ⟨cs ++ pages.flatten, p + pages.length, true, none, retries,
            worldAfter fetch s p pages.length, calls ++ callsFor p pages, logged⟩ := by
  induction pages with
  | nil =>
    intro cs p retries s calls logged fuel _ _ _
    simp [worldAfter, callsFor]
  | cons items rest ih =>
    intro cs p retries s calls logged fuel hserve h0 h1
    obtain ⟨hfetch, hrest⟩ := hserve
    simp only [List.length_cons, Nat.cast_add, Nat.cast_one] at h1
    have hfuel : fuel + (items :: rest).length = (fuel + rest.length) + 1 := by
      simp only [List.length_cons]; omega
    rw [hfuel, pageLoop]
    simp only [hfetch, if_true]
    rw [wrapInt_succ p h0 (by omega)]
    rw [ih (cs ++ items) (p + 1) retries _ _ logged fuel hrest (by omega) (by omega)]
    simp only [List.flatten_cons, List.append_assoc, List.length_cons, worldAfter, callsFor,
      Nat.cast_add, Nat.cast_one, List.singleton_append, hfetch]
    congr 2
    omega

theorem wrapInt_one : wrapInt (0 + 1) = 1 := by
  unfold wrapInt
  omega

/-- The page that answers `more = false` ends the loop normally. -/
theorem pageLoop_last {σ : Type} (fetch : σ → Int → FetchResult × σ)
    (MaxRetries : Int) (cs items : List Category) (p retries : Int) (s : σ)
    (calls : List Call) (logged : List GoError) (fuel : Nat)
    (hfetch : (fetch s p).1 = ⟨items, false, none⟩) :
    pageLoop fetch MaxRetries (fuel + 2) ⟨cs, p, true, none, retries, s, calls, logged⟩
      = Run.done (LoopExit.fellOut ⟨cs ++ items, none, (fetch s p).2,
          calls ++ [Call.mk p ⟨items, false, none⟩], logged⟩) := by
  rw [pageLoop]
  simp only [hfetch, if_true]
  rw [pageLoop]
  simp

/-- The first failing fetch ends the loop: by the `return` of line 42 when
`MaxRetries < 1`, by the `break` of line 44 otherwise. -/
theorem pageLoop_fail {σ : Type} (fetch : σ → Int → FetchResult × σ)
    (MaxRetries : Int) (cs : List Category) (p : Int) (s : σ)
    (calls : List Call) (logged : List GoError) (fuel : Nat) (e : GoError)
    (hfetch : (fetch s p).1.err = some e) :
    pageLoop fetch MaxRetries (fuel + 1) ⟨cs, p, true, none, 0, s, calls, logged⟩
      = if 1 > MaxRetries then
          Run.done (LoopExit.returned ⟨cs, some (GoError.errorf "max retries reached"),
            (fetch s p).2, calls ++ [Call.mk p (fetch s p).1], logged ++ [e]⟩)
        else
          Run.done (LoopExit.fellOut ⟨cs, some e, (fetch s p).2,
            calls ++ [Call.mk p (fetch s p).1], logged ++ [e]⟩) := by
  rw [pageLoop]
  simp only [hfetch, if_true, wrapInt_one]

theorem pageLoop_err_iff {σ : Type} (fetch : σ → Int → FetchResult × σ)
    (MaxRetries : Int) (fuel : Nat) :
    ∀ (v : Vars σ) (exit : LoopExit σ), v.err = none →
      (∀ c ∈ v.calls, c.result.err = none) →
      pageLoop fetch MaxRetries fuel v = Run.done exit →
      (exit.out.err = none ↔ ∀ c ∈ exit.out.calls, c.result.err = none) := by
  induction fuel with
  | zero => intro v exit _ _ h; simp [pageLoop] at h
  | succ fuel ih =>
    intro v exit herr hcalls h
    rw [pageLoop] at h
    by_cases hmore : v.more = true
    · simp only [hmore, if_true] at h
      cases hr : (fetch v.world v.page).1.err with
      | some e =>
        rw [hr] at h
        simp only at h
        split at h
        · simp only [Run.done.injEq] at h
          subst h
          simp only [LoopExit.out, List.mem_append, List.mem_singleton]
          constructor
          · intro h0; simp at h0
          · intro hall
            have := hall _ (Or.inr rfl)
            simp [hr] at this
        · simp only [Run.done.injEq] at h
          subst h
          simp only [LoopExit.out, List.mem_append, List.mem_singleton]
          constructor
          · intro h0; simp at h0
          · intro hall
            have := hall _ (Or.inr rfl)
            simp [hr] at this
      | none =>
        rw [hr] at h
        simp only at h
        refine ih _ exit rfl ?_ h
        intro c hc
        simp only [List.mem_append, List.mem_singleton] at hc
        rcases hc with hc | hc
        · exact hcalls c hc
        · rw [hc]; exact hr
    · simp only [hmore] at h
      simp only [Bool.false_eq_true, if_false, Run.done.injEq] at h
      subst h
      simp only [LoopExit.out]
      exact ⟨fun _ => hcalls, fun _ => herr⟩

theorem GetAllCategoriesVia_fellOut {σ : Type} (fetch : σ → Int → FetchResult × σ)
    (MaxRetries : Int) (fuel : Nat) (s : σ) (o : Outcome σ) (cs : List Category)
    (hloop : pageLoop fetch MaxRetries fuel (initVars s) = Run.done (LoopExit.fellOut o))
    (hpost : postProcess fuel o.cs = Run.done cs) :
    GetAllCategoriesVia fetch MaxRetries fuel s
      = Run.done ⟨cs, o.err, o.world, o.calls, o.logged⟩ := by
  simp [GetAllCategoriesVia, hloop, hpost]

theorem resolvedName_eq (cs : List Category) (m : GoMap) (fuel : Nat) (j : Nat)
    (h : ∃ name, getFullCategoryName cs m fuel (j : Int) = Run.done name) :
    getFullCategoryName cs m fuel (j : Int) = Run.done (resolvedName cs m fuel j) := by
  obtain ⟨name, hname⟩ := h
  simp [resolvedName, hname]

theorem map_wire_of_decorated (out cs : List Category) (nameOf : Nat → String)
    (h : ∀ j : Nat, out[j]? = (cs[j]?).map (fun c => decorateItem c (nameOf j))) :
    out.map wire = cs.map wire := by
  apply List.ext_getElem?
  intro j
  rw [List.getElem?_map, List.getElem?_map, h j]
  cases cs[j]? with
  | none => rfl
  | some c => rfl

/-- The entry point is the loop and the post-processing run over
`GetCategories`. -/
theorem GetAllCategories_eq {σ Req : Type} (bc : BigCommerce σ Req)
    (unmarshal : String → Except GoError Envelope) (context xAuthToken : String)
    (fuel : Nat) (s : σ) :
    GetAllCategories bc unmarshal context xAuthToken fuel s
      = GetAllCategoriesVia (GetCategories bc unmarshal context xAuthToken)
          bc.MaxRetries fuel s := rfl

/-! ## Pagination -/

/-- C1: let the fetcher serve pages `1..N` without error, with `more = true`
on pages `1..N-1` (the lists `init`) and `more = false` on page `N` (the list
`last`), `N` being a Go `int`, and let every parent chain of the items reach a
root. Then, with enough fuel, `GetAllCategories` returns; it has called the
fetcher exactly for the pages `1, 2, ..., N` in this order; its error is nil;
and its list agrees on the wire fields with the concatenation of the pages. -/
theorem GetAllCategoriesVia_paginates {σ : Type} (fetch : σ → Int → FetchResult × σ)
    (MaxRetries : Int) (s : σ) (init : List (List Category)) (last : List Category)
    (hN : (init.length : Int) + 1 < 2 ^ 63)
    (hinit : ServesMore fetch s 1 init)
    (hlast : (fetch (worldAfter fetch s 1 init.length) (1 + init.length)).1
      = ⟨last, false, none⟩)
    (hgr : ∀ c ∈ init.flatten ++ last, Grounded (init.flatten ++ last) c) :
    ∃ fuel0, ∀ fuel, fuel0 ≤ fuel →
      ∃ out, GetAllCategoriesVia fetch MaxRetries fuel s = Run.done out ∧
        out.err = none ∧
        out.calls.map Call.page = pageNumbers (init.length + 1) ∧
        out.cs.map wire = (init.flatten ++ last).map wire := by
  have hwalk : ∀ j : Nat, j < (init.flatten ++ last).length →
      WalkEnds (init.flatten ++ last) (buildIndex (init.flatten ++ last) 0 []) (j : Int) :=
    fun j hj => (hgr _ (List.getElem_mem hj)).walkEnds j (List.getElem?_eq_getElem hj)
  obtain ⟨n, hn⟩ := resolves_all _ _ hwalk
  refine ⟨max n (init.length + 2), fun fuel hf => ?_⟩
  have hfn : n ≤ fuel := le_trans (le_max_left _ _) hf
  have hfl : init.length + 2 ≤ fuel := le_trans (le_max_right _ _) hf
  have hloop : pageLoop fetch MaxRetries fuel (initVars s)
      = Run.done (LoopExit.fellOut ⟨init.flatten ++ last, none,
          (fetch (worldAfter fetch s 1 init.length) (1 + init.length)).2,
          callsFor 1 init ++ [Call.mk (1 + init.length) ⟨last, false, none⟩], []⟩) := by
    obtain ⟨f, rfl⟩ : ∃ f, fuel = (f + 2) + init.length :=
      ⟨fuel - init.length - 2, by omega⟩
    unfold initVars
    rw [pageLoop_serves fetch MaxRetries init [] 1 0 s [] [] (f + 2) hinit (by omega)
      (by omega)]
    rw [pageLoop_last fetch MaxRetries _ last _ _ _ _ _ f hlast]
    simp
  obtain ⟨out, hpost, _, hget⟩ := postProcess_spec fuel (init.flatten ++ last)
    (resolvedName _ (buildIndex (init.flatten ++ last) 0 []) fuel)
    (fun j hj => resolvedName_eq _ _ _ _ (hn fuel hfn j hj))
  refine ⟨_, GetAllCategoriesVia_fellOut fetch MaxRetries fuel s _ out hloop hpost,
    rfl, ?_, map_wire_of_decorated _ _ _ hget⟩
  have hpages := callsFor_pages 1 init
  simp only [Nat.cast_one] at hpages
  simp only [List.map_append, hpages, pageNumbers, List.range'_concat, List.map_cons,
    List.map_nil, Nat.cast_add, Nat.cast_one, one_mul, Nat.cast_mul]

/-- Witness of C1: the two-page catalog `twoPages`. -/
theorem GetAllCategoriesVia_paginates_witness :
    ((([[shoes]] : List (List Category)).length : Int) + 1 < 2 ^ 63) ∧
    ServesMore twoPages 0 1 [[shoes]] ∧
    (twoPages (worldAfter twoPages 0 1 [[shoes]].length)
      (1 + ([[shoes]] : List (List Category)).length)).1 = ⟨[running], false, none⟩ ∧
    (∀ c ∈ [[shoes]].flatten ++ [running], Grounded ([[shoes]].flatten ++ [running]) c) ∧
    ∃ fuel0, ∀ fuel, fuel0 ≤ fuel →
      ∃ out, GetAllCategoriesVia twoPages 0 fuel 0 = Run.done out ∧
        out.err = none ∧
        out.calls.map Call.page = pageNumbers ([[shoes]].length + 1) ∧
        out.cs.map wire = ([[shoes]].flatten ++ [running]).map wire := by
  have hshoes : Grounded [shoes, running] shoes := Grounded.root shoes rfl
  have hgr : ∀ c ∈ [[shoes]].flatten ++ [running],
      Grounded ([[shoes]].flatten ++ [running]) c := by
    intro c hc
    simp only [List.flatten_cons, List.flatten_nil, List.append_nil, List.singleton_append,
      List.mem_cons, List.mem_singleton, List.not_mem_nil, or_false] at hc ⊢
    rcases hc with rfl | rfl
    · exact hshoes
    · refine Grounded.step running (by decide) ⟨shoes, by simp, rfl⟩ ?_
      intro p hp hid
      simp only [List.mem_cons, List.mem_singleton, List.not_mem_nil, or_false] at hp
      rcases hp with rfl | rfl
      · exact hshoes
      · exact absurd hid (by decide)
  exact ⟨by decide, ⟨rfl, trivial⟩, rfl, hgr,
    GetAllCategoriesVia_paginates twoPages 0 0 [[shoes]] [running] (by decide)
      ⟨rfl, trivial⟩ rfl hgr⟩

/-- C9: when the first request is answered with zero items, no error and
`more = false`, `GetAllCategories` returns an empty list and a nil error, for
every `MaxRetries`; it has made that one request only. -/
theorem GetAllCategoriesVia_emptyCatalog {σ : Type} (fetch : σ → Int → FetchResult × σ)
    (MaxRetries : Int) (s : σ) (fuel : Nat)
    (hempty : (fetch s 1).1 = ⟨[], false, none⟩) :
    GetAllCategoriesVia fetch MaxRetries (fuel + 2) s
      = Run.done ⟨[], none, (fetch s 1).2, [Call.mk 1 ⟨[], false, none⟩], []⟩ := by
  have hloop := pageLoop_last fetch MaxRetries [] [] 1 0 s [] [] fuel hempty
  rw [GetAllCategoriesVia_fellOut fetch MaxRetries (fuel + 2) s _ [] hloop rfl]
  rfl

/-- Witness of C9: the fetcher `emptyCatalog` with `MaxRetries = 3`. -/
theorem GetAllCategoriesVia_emptyCatalog_witness :
    (emptyCatalog () 1).1 = ⟨[], false, none⟩ ∧
    GetAllCategoriesVia emptyCatalog 3 (0 + 2) ()
      = Run.done ⟨[], none, (emptyCatalog () 1).2, [Call.mk 1 ⟨[], false, none⟩], []⟩ :=
  ⟨rfl, GetAllCategoriesVia_emptyCatalog emptyCatalog 3 () 0 rfl⟩

/-! ## Errors -/

/-- C4: in every run of `GetAllCategories` that returns, the returned error is
nil exactly when no call of the page fetcher returned an error. -/
theorem GetAllCategoriesVia_err_nil_iff {σ : Type} (fetch : σ → Int → FetchResult × σ)
    (MaxRetries : Int) (fuel : Nat) (s : σ) (out : Outcome σ)
    (hrun : GetAllCategoriesVia fetch MaxRetries fuel s = Run.done out) :
    out.err = none ↔ ∀ c ∈ out.calls, c.result.err = none := by
  unfold GetAllCategoriesVia at hrun
  cases hloop : pageLoop fetch MaxRetries fuel (initVars s) with
  | panic msg => rw [hloop] at hrun; simp at hrun
  | outOfFuel => rw [hloop] at hrun; simp at hrun
  | done exit =>
    have hiff := pageLoop_err_iff fetch MaxRetries fuel (initVars s) exit rfl
      (by simp [initVars]) hloop
    rw [hloop] at hrun
    cases exit with
    | returned o =>
      simp only [Run.done.injEq] at hrun
      subst hrun
      exact hiff
    | fellOut o =>
      simp only at hrun
      cases hpost : postProcess fuel o.cs with
      | panic msg => rw [hpost] at hrun; simp at hrun
      | outOfFuel => rw [hpost] at hrun; simp at hrun
      | done cs =>
        rw [hpost] at hrun
        simp only [Run.done.injEq] at hrun
        subst hrun
        exact hiff

/-- Witness of C4: the run over `pageThenFail` with `MaxRetries = 1`, which
returns the fetcher's error after two calls. -/
theorem GetAllCategoriesVia_err_nil_iff_witness :
    GetAllCategoriesVia pageThenFail 1 3 0
      = Run.done ⟨[decorateItem shoes "Shoes"],
          some (GoError.external "connection reset"), 2,
          [Call.mk 1 ⟨[shoes], true, none⟩,
            Call.mk 2 ⟨[], false, some (GoError.external "connection reset")⟩],
          [GoError.external "connection reset"]⟩ ∧
    ((some (GoError.external "connection reset") : Option GoError) = none ↔
      ∀ c ∈ [Call.mk 1 ⟨[shoes], true, none⟩,
            Call.mk 2 ⟨[], false, some (GoError.external "connection reset")⟩],
        c.result.err = none) :=
  ⟨rfl, GetAllCategoriesVia_err_nil_iff pageThenFail 1 3 0 _ rfl⟩

theorem getFullCategoryName_selfLoop (cs : List Category) (m : GoMap) (i : Int)
    (c : Category) (hi : index cs i = some c) (hne : c.ParentID ≠ 0)
    (hback : m.get c.ParentID = i) (fuel : Nat) :
    getFullCategoryName cs m fuel i = Run.outOfFuel := by
  induction fuel with
  | zero => rfl
  | succ fuel ih =>
    rw [getFullCategoryName]
    simp only [hi, hne, if_false, hback, ih]

theorem selfParent_diverges (fuel : Nat) :
    getFullCategoryName
        (updateAt [selfParent] 0 (fun c => { c with URL := c.CustomURL.URL }))
        (buildIndex [selfParent] 0 []) fuel ((0 : Nat) : Int) = Run.outOfFuel :=
  getFullCategoryName_selfLoop
    (updateAt [selfParent] 0 (fun c => { c with URL := c.CustomURL.URL }))
    (buildIndex [selfParent] 0 []) ((0 : Nat) : Int)
    { selfParent with URL := selfParent.CustomURL.URL } rfl (by decide) rfl fuel

/-- Counterexample to C3 as stated: page 1 is served with `more = true`, page
2 fails, `MaxRetries = 1`, and the one item fetched names itself as parent;
`GetAllCategories` then returns nothing, whatever the fuel. -/
theorem partialSuccess_cyclic_never_returns :
    ServesMore cyclicThenFail () 1 [[selfParent]] ∧
    (cyclicThenFail () 2).1.err = some (GoError.external "connection reset") ∧
    ∀ fuel, GetAllCategoriesVia cyclicThenFail 1 fuel () = Run.outOfFuel := by
  refine ⟨⟨rfl, trivial⟩, rfl, fun fuel => ?_⟩
  match fuel with
  | 0 => rfl
  | 1 => rfl
  | fuel + 2 =>
    have hloop : pageLoop cyclicThenFail 1 (fuel + 2) (initVars ())
        = Run.done (LoopExit.fellOut ⟨[selfParent],
            some (GoError.external "connection reset"), (),
            [Call.mk 1 ⟨[selfParent], true, none⟩,
              Call.mk 2 ⟨[], false, some (GoError.external "connection reset")⟩],
            [GoError.external "connection reset"]⟩) := rfl
    unfold GetAllCategoriesVia
    rw [hloop]
    simp only [postProcess, List.length_singleton, decorateFrom]
    rw [selfParent_diverges]

/-- C3, amended: let pages `1..K-1` be served without error and with
`more = true`, let the fetch of page `K` (a Go `int`) fail with error `e`, let
`MaxRetries >= 1`, and let the walk of the name resolver end at a root from
every position of the accumulated list. Then, with enough fuel,
`GetAllCategories` returns exactly the error `e` and a list that holds, at each
position of the accumulated list, the item fetched there with `URL` and
`FullName` filled in. -/
theorem GetAllCategoriesVia_partialSuccess {σ : Type}
    (fetch : σ → Int → FetchResult × σ) (MaxRetries : Int) (s : σ)
    (pages : List (List Category)) (e : GoError)
    (hK : (pages.length : Int) + 1 < 2 ^ 63)
    (hmax : 1 ≤ MaxRetries)
    (hserve : ServesMore fetch s 1 pages)
    (hfail : (fetch (worldAfter fetch s 1 pages.length) (1 + pages.length)).1.err = some e)
    (hwalk : ∀ j : Nat, j < pages.flatten.length →
      WalkEnds pages.flatten (buildIndex pages.flatten 0 []) (j : Int)) :
    ∃ fuel0, ∀ fuel, fuel0 ≤ fuel →
      ∃ out, GetAllCategoriesVia fetch MaxRetries fuel s = Run.done out ∧
        out.err = some e ∧
        out.cs.length = pages.flatten.length ∧
        ∀ (j : Nat) (c : Category), pages.flatten[j]? = some c →
          ∃ name,
            getFullCategoryName pages.flatten (buildIndex pages.flatten 0 []) fuel (j : Int)
              = Run.done name ∧
            out.cs[j]? = some (decorateItem c name) := by
  obtain ⟨n, hn⟩ := resolves_all _ _ hwalk
  refine ⟨max n (pages.length + 1), fun fuel hf => ?_⟩
  have hfn : n ≤ fuel := le_trans (le_max_left _ _) hf
  have hfl : pages.length + 1 ≤ fuel := le_trans (le_max_right _ _) hf
  have hloop : pageLoop fetch MaxRetries fuel (initVars s)
      = Run.done (LoopExit.fellOut ⟨pages.flatten, some e,
          (fetch (worldAfter fetch s 1 pages.length) (1 + pages.length)).2,
          callsFor 1 pages ++ [Call.mk (1 + pages.length)
            (fetch (worldAfter fetch s 1 pages.length) (1 + pages.length)).1], [e]⟩) := by
    obtain ⟨f, rfl⟩ : ∃ f, fuel = (f + 1) + pages.length :=
      ⟨fuel - pages.length - 1, by omega⟩
    unfold initVars
    rw [pageLoop_serves fetch MaxRetries pages [] 1 0 s [] [] (f + 1) hserve (by omega)
      (by omega)]
    rw [pageLoop_fail fetch MaxRetries _ _ _ _ _ f e hfail, if_neg (by omega)]
    simp
  have hres := fun j hj => resolvedName_eq _ _ _ _ (hn fuel hfn j hj)
  obtain ⟨out, hpost, hlen, hget⟩ := postProcess_spec fuel pages.flatten
    (resolvedName _ (buildIndex pages.flatten 0 []) fuel) hres
  refine ⟨_, GetAllCategoriesVia_fellOut fetch MaxRetries fuel s _ out hloop hpost,
    rfl, hlen, fun j c hc => ?_⟩
  refine ⟨_, hres j (List.getElem?_eq_some.mp hc).1, ?_⟩
  simp only at hget ⊢
  rw [hget j, hc]
  rfl

/-- Witness of the amended C3: `pageThenFail` with `MaxRetries = 1`. -/
theorem GetAllCategoriesVia_partialSuccess_witness :
    ((([[shoes]] : List (List Category)).length : Int) + 1 < 2 ^ 63) ∧
    ((1 : Int) ≤ 1) ∧
    ServesMore pageThenFail 0 1 [[shoes]] ∧
    (pageThenFail (worldAfter pageThenFail 0 1 [[shoes]].length)
      (1 + ([[shoes]] : List (List Category)).length)).1.err
        = some (GoError.external "connection reset") ∧
    (∀ j : Nat, j < [[shoes]].flatten.length →
      WalkEnds [[shoes]].flatten (buildIndex [[shoes]].flatten 0 []) (j : Int)) ∧
    ∃ fuel0, ∀ fuel, fuel0 ≤ fuel →
      ∃ out, GetAllCategoriesVia pageThenFail 1 fuel 0 = Run.done out ∧
        out.err = some (GoError.external "connection reset") ∧
        out.cs.length = [[shoes]].flatten.length ∧
        ∀ (j : Nat) (c : Category), [[shoes]].flatten[j]? = some c →
          ∃ name,
            getFullCategoryName [[shoes]].flatten (buildIndex [[shoes]].flatten 0 []) fuel
              (j : Int) = Run.done name ∧
            out.cs[j]? = some (decorateItem c name) := by
  have hwalk : ∀ j : Nat, j < [[shoes]].flatten.length →
      WalkEnds [[shoes]].flatten (buildIndex [[shoes]].flatten 0 []) (j : Int) := by
    intro j hj
    have hj0 : j = 0 := by
      simp only [List.flatten_cons, List.flatten_nil, List.append_nil,
        List.length_singleton] at hj
      omega
    subst hj0
    exact WalkEnds.root _ shoes rfl rfl
  exact ⟨by decide, by decide, ⟨rfl, trivial⟩, rfl, hwalk,
    GetAllCategoriesVia_partialSuccess pageThenFail 1 0 [[shoes]] _ (by decide) (by decide)
      ⟨rfl, trivial⟩ rfl hwalk⟩

/-! ## Hierarchical names -/

theorem intercalate_go_concat (sep acc y : String) (xs : List String) :
    String.intercalate.go acc sep (xs ++ [y])
      = String.intercalate.go acc sep xs ++ sep ++ y := by
  induction xs generalizing acc with
  | nil => simp [String.intercalate.go]
  | cons x xs ih => simp [String.intercalate.go, ih]

theorem intercalate_concat (sep y : String) (xs : List String) (hne : xs ≠ []) :
    sep.intercalate (xs ++ [y]) = sep.intercalate xs ++ sep ++ y := by
  cases xs with
  | nil => exact absurd rfl hne
  | cons x xs => simp [String.intercalate, intercalate_go_concat]

theorem Ancestry.mem {cs : List Category} {c : Category} {chain : List Category}
    (h : Ancestry cs c chain) : c ∈ cs := by
  cases h with
  | root _ hc _ => exact hc
  | child _ _ _ hc _ _ _ => exact hc

theorem Ancestry.ne_nil {cs : List Category} {c : Category} {chain : List Category}
    (h : Ancestry cs c chain) : chain ≠ [] := by
  cases h with
  | root _ _ _ => simp
  | child _ _ _ _ _ _ _ => simp

theorem Ancestry.of_subset {cs cs2 : List Category} {c : Category}
    {chain : List Category} (hsub : ∀ x, x ∈ cs → x ∈ cs2) (h : Ancestry cs c chain) :
    Ancestry cs2 c chain := by
  induction h with
  | root c hc hroot => exact Ancestry.root c (hsub c hc) hroot
  | child c p chain hc hne hid _ ih => exact Ancestry.child c p chain (hsub c hc) hne hid ih

/-- With pairwise-distinct IDs, the resolver returns the names along the
ancestry of an item, root first, joined by `" > "`. -/
theorem getFullCategoryName_ancestry (cs : List Category)
    (hnodup : (cs.map Category.ID).Nodup) (c : Category) (chain : List Category)
    (hchain : Ancestry cs c chain) :
    ∀ (j : Nat), cs[j]? = some c → ∀ fuel, chain.length ≤ fuel →
      getFullCategoryName cs (buildIndex cs 0 []) fuel (j : Int)
        = Run.done (" > ".intercalate (chain.map Category.Name)) := by
  induction hchain with
  | root c hc hroot =>
    intro j hj fuel hf
    obtain ⟨f, rfl⟩ : ∃ f, fuel = f + 1 := ⟨fuel - 1, by simp at hf; omega⟩
    simp [getFullCategoryName, index_natCast, hj, hroot, String.intercalate,
      String.intercalate.go]
  | child c p chain hc hne hid hp ih =>
    intro j hj fuel hf
    obtain ⟨f, rfl⟩ : ∃ f, fuel = f + 1 := ⟨fuel - 1, by simp at hf; omega⟩
    obtain ⟨j2, d, hj2, hd, hget, _⟩ :=
      buildIndex_get_present cs c.ParentID ⟨p, hp.mem, hid⟩ 0 []
    have hdp : d = p :=
      List.inj_on_of_nodup_map hnodup (List.getElem?_mem hj2) hp.mem (by rw [hd, hid])
    subst hdp
    have hrec := ih j2 hj2 f (by simp at hf; omega)
    simp only [Nat.zero_add] at hget
    rw [getFullCategoryName]
    simp only [index_natCast, hj, hne, if_false, hget, hrec, List.map_append, List.map_cons,
      List.map_nil]
    rw [intercalate_concat _ _ _ (by simpa using hp.ne_nil)]

/-- C5: let the IDs of `cs` be pairwise distinct and let every item have an
ancestry within `cs` that ends at a root. Then, in whatever order `cs2` the
items are accumulated, the post-processing returns, and the `FullName` it
stores for an item is the `Name`s along that item's ancestry, root first, joined
by `" > "`. -/
theorem postProcess_fullName (cs cs2 : List Category) (hperm : cs2.Perm cs)
    (hnodup : (cs.map Category.ID).Nodup)
    (hall : ∀ c ∈ cs, ∃ chain, Ancestry cs c chain) :
    ∃ fuel0, ∀ fuel, fuel0 ≤ fuel →
      ∃ out, postProcess fuel cs2 = Run.done out ∧ out.length = cs2.length ∧
        ∀ (j : Nat) (c : Category) (chain : List Category),
          cs2[j]? = some c → Ancestry cs c chain →
          (out[j]?).map Category.FullName
            = some (" > ".intercalate (chain.map Category.Name)) := by
  have hnodup2 : (cs2.map Category.ID).Nodup := (hperm.map _).nodup_iff.mpr hnodup
  have hsub : ∀ x, x ∈ cs → x ∈ cs2 := fun x hx => hperm.mem_iff.mpr hx
  have hone : ∀ j : Nat, j < cs2.length → ∃ n name, ∀ fuel, n ≤ fuel →
      getFullCategoryName cs2 (buildIndex cs2 0 []) fuel (j : Int) = Run.done name := by
    intro j hj
    obtain ⟨chain, hchain⟩ := hall _ (hperm.mem_iff.mp (List.getElem_mem hj))
    exact ⟨chain.length, _, getFullCategoryName_ancestry cs2 hnodup2 _ chain
      (hchain.of_subset hsub) j (List.getElem?_eq_getElem hj)⟩
  obtain ⟨n, hn⟩ := resolves_uniform _ _ hone
  refine ⟨n, fun fuel hf => ?_⟩
  have hres := fun j hj => resolvedName_eq _ _ _ _ (hn fuel hf j hj)
  obtain ⟨out, hpost, hlen, hget⟩ := postProcess_spec fuel cs2
    (resolvedName _ (buildIndex cs2 0 []) fuel) hres
  refine ⟨out, hpost, hlen, fun j c chain hj hchain => ?_⟩
  have h1 := hres j (List.getElem?_eq_some.mp hj).1
  have h2 := getFullCategoryName_ancestry cs2 hnodup2 c chain (hchain.of_subset hsub) j hj
    (max fuel chain.length) (le_max_right _ _)
  have h3 := getFullCategoryName_mono _ _ fuel (max fuel chain.length) _ _
    (le_max_left _ _) h1
  rw [h3] at h2
  simp only [Run.done.injEq] at h2
  rw [hget j, hj]
  simp only [Option.map_some', decorateItem, h2]

/-- Witness of C5: `shoes` and `running`, accumulated child first. -/
theorem postProcess_fullName_witness :
    [running, shoes].Perm [shoes, running] ∧
    ([shoes, running].map Category.ID).Nodup ∧
    (∀ c ∈ [shoes, running], ∃ chain, Ancestry [shoes, running] c chain) ∧
    ∃ fuel0, ∀ fuel, fuel0 ≤ fuel →
      ∃ out, postProcess fuel [running, shoes] = Run.done out ∧
        out.length = [running, shoes].length ∧
        ∀ (j : Nat) (c : Category) (chain : List Category),
          [running, shoes][j]? = some c → Ancestry [shoes, running] c chain →
          (out[j]?).map Category.FullName
            = some (" > ".intercalate (chain.map Category.Name)) := by
  have hshoes : Ancestry [shoes, running] shoes [shoes] :=
    Ancestry.root shoes (by simp) rfl
  have hall : ∀ c ∈ [shoes, running], ∃ chain, Ancestry [shoes, running] c chain := by
    intro c hc
    simp only [List.mem_cons, List.mem_singleton, List.not_mem_nil, or_false] at hc
    rcases hc with rfl | rfl
    · exact ⟨_, hshoes⟩
    · exact ⟨_, Ancestry.child running shoes [shoes] (by simp) (by decide) rfl hshoes⟩
  exact ⟨List.Perm.swap _ _ _, by decide, hall,
    postProcess_fullName [shoes, running] [running, shoes] (List.Perm.swap _ _ _)
      (by decide) hall⟩

/-- The example of the specification: `Running` under `Shoes` resolves to
`"Shoes > Running"`, in either order of accumulation. -/
theorem postProcess_shoes_running :
    postProcess 2 [shoes, running]
      = Run.done [decorateItem shoes "Shoes", decorateItem running "Shoes > Running"] ∧
    postProcess 2 [running, shoes]
      = Run.done [decorateItem running "Shoes > Running", decorateItem shoes "Shoes"] :=
  ⟨rfl, rfl⟩

/-! ## Root name resolution and the no-content answer -/

/-- C6: for every list, every index map and every in-range position `i` whose
item has `ParentID = 0`, `getFullCategoryName` returns exactly that item's
`Name`, whatever else the list and the map hold. -/
theorem getFullCategoryName_root (cs : List Category) (extidmap : GoMap) (i : Int)
    (c : Category) (fuel : Nat) (hi : index cs i = some c) (hroot : c.ParentID = 0) :
    getFullCategoryName cs extidmap (fuel + 1) i = Run.done c.Name := by
  simp [getFullCategoryName, hi, hroot]

/-- Witness of C6: `shoes` at position 1 of a list, with a map that points
elsewhere. -/
theorem getFullCategoryName_root_witness :
    index [orphan, shoes] 1 = some shoes ∧ shoes.ParentID = 0 ∧
    getFullCategoryName [orphan, shoes] [(1, 5), (99, 7)] (0 + 1) 1 = Run.done shoes.Name :=
  ⟨rfl, rfl, getFullCategoryName_root [orphan, shoes] [(1, 5), (99, 7)] 1 shoes 0 rfl rfl⟩

/-- C8: when the HTTP client answers the page request with a response of
status 204, whatever its body, `GetCategories` returns no items, `more = false`
and the error `ErrNoContent`, which is none of the errors handed over by the
client, the body reader or the decoder. The body is not read. -/
theorem GetCategories_noContent {σ Req : Type} (bc : BigCommerce σ Req)
    (unmarshal : String → Except GoError Envelope) (context xAuthToken : String)
    (s s1 : σ) (page : Int) (res : Response)
    (hdo : bc.DefaultClient s (pageRequest bc context xAuthToken page) = (Except.ok res, s1))
    (hstatus : res.StatusCode = 204) :
    GetCategories bc unmarshal context xAuthToken s page
        = (⟨[], false, some ErrNoContent⟩, s1) ∧
      ∀ msg, ErrNoContent ≠ GoError.external msg := by
  refine ⟨?_, fun msg h => ?_⟩
  · simp [GetCategories, hdo, hstatus, StatusNoContent]
  · simp [ErrNoContent] at h

/-- Witness of C8: the store `noContentStore`, whose 204 answer has a body. -/
theorem GetCategories_noContent_witness :
    noContentStore.DefaultClient 0 (pageRequest noContentStore "stores/abc" "token" 1)
      = (Except.ok ⟨204, Except.ok "stray body"⟩, 1) ∧
    (204 : Int) = 204 ∧
    (GetCategories noContentStore rejectAll "stores/abc" "token" 0 1
        = (⟨[], false, some ErrNoContent⟩, 1) ∧
      ∀ msg, ErrNoContent ≠ GoError.external msg) :=
  ⟨rfl, rfl, GetCategories_noContent noContentStore rejectAll "stores/abc" "token" 0 1 1
    ⟨204, Except.ok "stray body"⟩ rfl rfl⟩

/-! ## Dangling parents -/

theorem getFullCategoryName_no_panic (cs : List Category) (fuel : Nat) :
    ∀ (j : Nat) (c : Category) (msg : String), cs[j]? = some c →
      getFullCategoryName cs (buildIndex cs 0 []) fuel (j : Int) ≠ Run.panic msg := by
  induction fuel with
  | zero => intro j c msg _ h; simp [getFullCategoryName] at h
  | succ fuel ih =>
    intro j c msg hj h
    have hne : cs ≠ [] := by
      intro hnil; rw [hnil] at hj; simp at hj
    rw [getFullCategoryName, index_natCast, hj] at h
    simp only at h
    by_cases hroot : c.ParentID = 0
    · simp [hroot] at h
    · simp only [hroot, if_false] at h
      obtain ⟨j2, c2, hget, hj2⟩ := index_buildIndex_get cs hne c.ParentID
      rw [hget] at h
      cases hr : getFullCategoryName cs (buildIndex cs 0 []) fuel (j2 : Int) with
      | done name => rw [hr] at h; simp at h
      | outOfFuel => rw [hr] at h; simp at h
      | panic msg2 => exact ih j2 c2 msg2 hj2 hr

/-- Counterexample to C10 as stated: `orphan` has the non-zero `ParentID` 99,
which no item of `[shoes, orphan]` carries, and its name resolution returns
normally, with the name `"Shoes > Sale"`. -/
theorem dangling_parent_returns_a_name :
    orphan.ParentID ≠ 0 ∧ (∀ d ∈ [shoes, orphan], d.ID ≠ orphan.ParentID) ∧
    getFullCategoryName [shoes, orphan] (buildIndex [shoes, orphan] 0 []) 2 1
      = Run.done "Shoes > Sale" :=
  ⟨by decide, by decide, rfl⟩

/-- C10, amended: for every accumulated list and every item of it whose
non-zero `ParentID` is the ID of no item of the list, the index answers the
absent `ParentID` with position 0, which is in range; the resolution of the
item is the resolution of position 0 followed by `" > "` and the item's own
`Name`, and no resolution step panics on an out-of-range position. -/
theorem getFullCategoryName_dangling (cs : List Category) (i : Nat) (c : Category)
    (hi : cs[i]? = some c) (hne : c.ParentID ≠ 0)
    (habs : ∀ d ∈ cs, d.ID ≠ c.ParentID) :
    (buildIndex cs 0 []).get c.ParentID = 0 ∧
    (∃ c0, index cs 0 = some c0) ∧
    (∀ fuel, getFullCategoryName cs (buildIndex cs 0 []) (fuel + 1) (i : Int)
      = match getFullCategoryName cs (buildIndex cs 0 []) fuel 0 with
        | Run.done s => Run.done (s ++ " > " ++ c.Name)
        | Run.panic msg => Run.panic msg
        | Run.outOfFuel => Run.outOfFuel) ∧
    ∀ fuel msg, getFullCategoryName cs (buildIndex cs 0 []) fuel (i : Int)
      ≠ Run.panic msg := by
  have hget : (buildIndex cs 0 []).get c.ParentID = 0 := by
    rw [buildIndex_get_absent cs _ habs]; rfl
  refine ⟨hget, ?_, fun fuel => ?_, fun fuel msg => getFullCategoryName_no_panic cs fuel i c msg hi⟩
  · cases cs with
    | nil => simp at hi
    | cons c0 rest => exact ⟨c0, by simp [index]⟩
  · rw [getFullCategoryName, index_natCast, hi]
    simp only [hne, if_false, hget]

/-- Witness of the amended C10: `orphan` in `[shoes, orphan]`. -/
theorem getFullCategoryName_dangling_witness :
    [shoes, orphan][1]? = some orphan ∧ orphan.ParentID ≠ 0 ∧
    (∀ d ∈ [shoes, orphan], d.ID ≠ orphan.ParentID) ∧
    ((buildIndex [shoes, orphan] 0 []).get orphan.ParentID = 0 ∧
    (∃ c0, index [shoes, orphan] 0 = some c0) ∧
    (∀ fuel, getFullCategoryName [shoes, orphan] (buildIndex [shoes, orphan] 0 [])
        (fuel + 1) ((1 : Nat) : Int)
      = match getFullCategoryName [shoes, orphan] (buildIndex [shoes, orphan] 0 []) fuel 0 with
        | Run.done s => Run.done (s ++ " > " ++ orphan.Name)
        | Run.panic msg => Run.panic msg
        | Run.outOfFuel => Run.outOfFuel) ∧
    ∀ fuel msg, getFullCategoryName [shoes, orphan] (buildIndex [shoes, orphan] 0 []) fuel
      ((1 : Nat) : Int) ≠ Run.panic msg) :=
  ⟨rfl, by decide, by decide,
    getFullCategoryName_dangling [shoes, orphan] 1 orphan rfl (by decide) (by decide)⟩

/-! ## The two ways out of the loop on a failed fetch -/

/-- C2 at `MaxRetries = 3` with a fetcher whose every request fails: the loop
is left after the first failure, one request has been made, and the error
returned is the fetcher's, not "max retries reached". -/
theorem retryBound_first_failure_ends_run :
    (∀ s p, (alwaysFails s p).1.err = some (GoError.external "connection refused")) ∧
    ∀ fuel, GetAllCategoriesVia alwaysFails 3 (fuel + 1) ()
      = Run.done ⟨[], some (GoError.external "connection refused"), (),
          [Call.mk 1 ⟨[], false, some (GoError.external "connection refused")⟩],
          [GoError.external "connection refused"]⟩ :=
  ⟨fun _ _ => rfl, fun _ => rfl⟩

/-- C7 at the store `shoeStore`, whose `MaxRetries` is 0: page 1 is served
with `more = true`, the request for page 2 fails, and `GetAllCategories`
returns by line 42 with the item of page 1 as decoded, its `URL` still empty
while its `CustomURL.URL` is `"/shoes/"`. -/
theorem flattenedURL_skipped_on_max_retries :
    (∀ fuel, GetAllCategories shoeStore decodeShoes "stores/abc" "token" (fuel + 2) 0
      = Run.done ⟨[shoes], some (GoError.errorf "max retries reached"), 2,
          [Call.mk 1 ⟨[shoes], true, none⟩,
            Call.mk 2 ⟨[], false, some (GoError.external "connection reset")⟩],
          [GoError.external "connection reset"]⟩) ∧
    shoes.URL = "" ∧ shoes.CustomURL.URL = "/shoes/" :=
  ⟨fun _ => rfl, rfl, rfl⟩

/-! ## The decoded page -/

/-- C12: when the client answers the page request with a response whose
status is not 204, whose body is read without error and decodes to the
envelope `pp`, `GetCategories` returns exactly `pp.Data`, a nil error, and a
`more` flag that is true exactly when `current_page < total_pages`. -/
theorem GetCategories_decoded {σ Req : Type} (bc : BigCommerce σ Req)
    (unmarshal : String → Except GoError Envelope) (context xAuthToken : String)
    (s s1 : σ) (page : Int) (res : Response) (body : String) (pp : Envelope)
    (hdo : bc.DefaultClient s (pageRequest bc context xAuthToken page) = (Except.ok res, s1))
    (hstatus : res.StatusCode ≠ 204)
    (hbody : res.Body = Except.ok body)
    (hdecode : unmarshal body = Except.ok pp) :
    (GetCategories bc unmarshal context xAuthToken s page).1.items = pp.Data ∧
    (GetCategories bc unmarshal context xAuthToken s page).1.err = none ∧
    ((GetCategories bc unmarshal context xAuthToken s page).1.more = true ↔
      pp.Meta.Pagination.CurrentPage < pp.Meta.Pagination.TotalPages) ∧
    (GetCategories bc unmarshal context xAuthToken s page).2 = s1 := by
  simp [GetCategories, hdo, hstatus, hbody, hdecode, StatusNoContent]

/-- Witness of C12: the first answer of `shoeStore`, decoded by
`decodeShoes` to page 1 of 2. -/
theorem GetCategories_decoded_witness :
    shoeStore.DefaultClient 0 (pageRequest shoeStore "stores/abc" "token" 1)
      = (Except.ok ⟨200, Except.ok "page 1 of 2"⟩, 1) ∧
    (200 : Int) ≠ 204 ∧
    (Response.mk 200 (Except.ok "page 1 of 2")).Body = Except.ok "page 1 of 2" ∧
    decodeShoes "page 1 of 2" = Except.ok ⟨[shoes], ⟨⟨2, 1, 1, 1, 2, none, false⟩⟩⟩ ∧
    ((GetCategories shoeStore decodeShoes "stores/abc" "token" 0 1).1.items = [shoes] ∧
    (GetCategories shoeStore decodeShoes "stores/abc" "token" 0 1).1.err = none ∧
    ((GetCategories shoeStore decodeShoes "stores/abc" "token" 0 1).1.more = true ↔
      (1 : Int) < 2) ∧
    (GetCategories shoeStore decodeShoes "stores/abc" "token" 0 1).2 = 1) :=
  ⟨rfl, by decide, rfl, rfl,
    GetCategories_decoded shoeStore decodeShoes "stores/abc" "token" 0 1 1
      ⟨200, Except.ok "page 1 of 2"⟩ "page 1 of 2" ⟨[shoes], ⟨⟨2, 1, 1, 1, 2, none, false⟩⟩⟩
      rfl (by decide) rfl rfl⟩

/-! ## The max-retries path -/

/-- C16: let pages `1..K-1` be served without error and with `more = true`,
let the fetch of page `K` (a Go `int`) fail with error `e`, and let
`MaxRetries <= 0`. Then `GetAllCategories` returns by line 42: the error is
"max retries reached", not `e`, and the list is the concatenation of the pages
exactly as the fetcher delivered them, lines 49-57 not having run. -/
theorem GetAllCategoriesVia_maxRetries {σ : Type}
    (fetch : σ → Int → FetchResult × σ) (MaxRetries : Int) (s : σ)
    (pages : List (List Category)) (e : GoError) (fuel : Nat)
    (hK : (pages.length : Int) + 1 < 2 ^ 63)
    (hmax : MaxRetries ≤ 0)
    (hserve : ServesMore fetch s 1 pages)
    (hfail : (fetch (worldAfter fetch s 1 pages.length) (1 + pages.length)).1.err = some e)
    (hfuel : pages.length + 1 ≤ fuel) :
    GetAllCategoriesVia fetch MaxRetries fuel s
      = Run.done ⟨pages.flatten, some (GoError.errorf "max retries reached"),
          (fetch (worldAfter fetch s 1 pages.length) (1 + pages.length)).2,
          callsFor 1 pages ++ [Call.mk (1 + pages.length)
            (fetch (worldAfter fetch s 1 pages.length) (1 + pages.length)).1],
          [e]⟩ := by
  obtain ⟨f, rfl⟩ : ∃ f, fuel = (f + 1) + pages.length :=
    ⟨fuel - pages.length - 1, by omega⟩
  unfold GetAllCategoriesVia initVars
  rw [pageLoop_serves fetch MaxRetries pages [] 1 0 s [] [] (f + 1) hserve (by omega)
    (by omega)]
  rw [pageLoop_fail fetch MaxRetries _ _ _ _ _ f e hfail, if_pos (by omega)]
  simp

/-- Witness of C16: `pageThenFail` with `MaxRetries = 0`; the item of page 1
comes back with its `URL` and `FullName` still empty. -/
theorem GetAllCategoriesVia_maxRetries_witness :
    ((([[shoes]] : List (List Category)).length : Int) + 1 < 2 ^ 63) ∧
    ((0 : Int) ≤ 0) ∧
    ServesMore pageThenFail 0 1 [[shoes]] ∧
    (pageThenFail (worldAfter pageThenFail 0 1 [[shoes]].length)
      (1 + ([[shoes]] : List (List Category)).length)).1.err
        = some (GoError.external "connection reset") ∧
    [[shoes]].length + 1 ≤ 2 ∧
    GetAllCategoriesVia pageThenFail 0 2 0
      = Run.done ⟨[[shoes]].flatten, some (GoError.errorf "max retries reached"),
          (pageThenFail (worldAfter pageThenFail 0 1 [[shoes]].length)
            (1 + ([[shoes]] : List (List Category)).length)).2,
          callsFor 1 [[shoes]] ++ [Call.mk (1 + ([[shoes]] : List (List Category)).length)
            (pageThenFail (worldAfter pageThenFail 0 1 [[shoes]].length)
              (1 + ([[shoes]] : List (List Category)).length)).1],
          [GoError.external "connection reset"]⟩ :=
  ⟨by decide, by decide, ⟨rfl, trivial⟩, rfl, by decide,
    GetAllCategoriesVia_maxRetries pageThenFail 0 0 [[shoes]] _ 2 (by decide) (by decide)
      ⟨rfl, trivial⟩ rfl (by decide)⟩

/-! ## A dangling parent under a root first item -/

/-- C17: in a list whose first item `c0` has `ParentID` 0, an item whose
non-zero `ParentID` is the ID of no item of the list resolves to the `Name` of
`c0`, then `" > "`, then its own `Name`: the absent key reads as position 0. -/
theorem getFullCategoryName_dangling_under_first (c0 : Category) (rest : List Category)
    (i : Nat) (c : Category) (fuel : Nat)
    (hfirst : c0.ParentID = 0)
    (hi : (c0 :: rest)[i]? = some c) (hne : c.ParentID ≠ 0)
    (habs : ∀ d ∈ c0 :: rest, d.ID ≠ c.ParentID) :
    getFullCategoryName (c0 :: rest) (buildIndex (c0 :: rest) 0 []) (fuel + 2) (i : Int)
      = Run.done (c0.Name ++ " > " ++ c.Name) := by
  have hget : (buildIndex (c0 :: rest) 0 []).get c.ParentID = ((0 : Nat) : Int) := by
    rw [buildIndex_get_absent _ _ habs]; rfl
  have h0 : getFullCategoryName (c0 :: rest) (buildIndex (c0 :: rest) 0 []) (fuel + 1)
      ((0 : Nat) : Int) = Run.done c0.Name := by
    rw [getFullCategoryName, index_natCast]
    simp [hfirst]
  rw [getFullCategoryName, index_natCast, hi]
  simp only [hne, if_false, hget, h0]

/-- Witness of C17: `orphan` behind `shoes` resolves to `"Shoes > Sale"`. -/
theorem getFullCategoryName_dangling_under_first_witness :
    shoes.ParentID = 0 ∧ (shoes :: [orphan])[1]? = some orphan ∧ orphan.ParentID ≠ 0 ∧
    (∀ d ∈ shoes :: [orphan], d.ID ≠ orphan.ParentID) ∧
    getFullCategoryName (shoes :: [orphan]) (buildIndex (shoes :: [orphan]) 0 []) (0 + 2)
      ((1 : Nat) : Int) = Run.done (shoes.Name ++ " > " ++ orphan.Name) :=
  ⟨rfl, rfl, by decide, by decide,
    getFullCategoryName_dangling_under_first shoes [orphan] 1 orphan 0 rfl rfl (by decide)
      (by decide)⟩

/-! ## The ID index -/

theorem GoMap.has_set (m : GoMap) (k v k2 : Int) :
    (m.set k v).has k2 = true ↔ k2 = k ∨ m.has k2 = true := by
  unfold GoMap.has GoMap.set
  by_cases h : k2 = k
  · subst h; simp [List.lookup]
  · have hb : (k2 == k) = false := by simpa using h
    simp [List.lookup, hb, h]

theorem buildIndex_has (cs : List Category) (k : Int) (i : Nat) (m : GoMap) :
    (buildIndex cs i m).has k = true ↔ (∃ c ∈ cs, c.ID = k) ∨ m.has k = true := by
  induction cs generalizing i m with
  | nil => simp [buildIndex]
  | cons c rest ih =>
    rw [buildIndex, ih, GoMap.has_set]
    constructor
    · rintro (⟨d, hd, hk⟩ | hk | hm)
      · exact Or.inl ⟨d, List.mem_cons_of_mem _ hd, hk⟩
      · exact Or.inl ⟨c, List.mem_cons_self _ _, hk.symm⟩
      · exact Or.inr hm
    · rintro (⟨d, hd, hk⟩ | hm)
      · rcases List.mem_cons.mp hd with h | h
        · exact Or.inr (Or.inl (by rw [← hk, h]))
        · exact Or.inl ⟨d, h, hk⟩
      · exact Or.inr (Or.inr hm)

/-- The index answers an ID with the greatest position that holds it. -/
theorem buildIndex_get_greatest (cs : List Category) (k : Int) (j : Nat) (c : Category)
    (hj : cs[j]? = some c) (hk : c.ID = k)
    (hlast : ∀ j2 d, j < j2 → cs[j2]? = some d → d.ID ≠ k) :
    (buildIndex cs 0 []).get k = (j : Int) := by
  obtain ⟨j1, c1, hj1, hk1, hget, hlast1⟩ :=
    buildIndex_get_present cs k ⟨c, List.getElem?_mem hj, hk⟩ 0 []
  rcases Nat.lt_trichotomy j j1 with h | h | h
  · exact absurd hk1 (hlast j1 c1 h hj1)
  · subst h; simpa using hget
  · exact absurd hk (hlast1 j c h hj)

theorem nodup_ID_greatest (cs : List Category) (hnodup : (cs.map Category.ID).Nodup)
    (j : Nat) (c : Category) (hj : cs[j]? = some c) :
    ∀ j2 d, j < j2 → cs[j2]? = some d → d.ID ≠ c.ID := by
  intro j2 d hlt hj2 hid
  have hlen : j2 < (cs.map Category.ID).length := by
    simpa using (List.getElem?_eq_some.mp hj2).1
  have := List.nodup_iff_getElem?_ne_getElem?.mp hnodup j j2 hlt hlen
  apply this
  rw [List.getElem?_map, List.getElem?_map, hj, hj2]
  simp [hid]

/-- C15: the keys of the index built from `cs` are exactly the IDs that occur
in `cs`; the index answers each such ID with the greatest position holding it,
which is the item's own position when the IDs are pairwise distinct; and the
resolver continues an item whose non-zero `ParentID` occurs in the list at the
last position that holds this ID. -/
theorem buildIndex_spec (cs : List Category) (k : Int) :
    ((buildIndex cs 0 []).has k = true ↔ ∃ c ∈ cs, c.ID = k) ∧
    ((∃ c ∈ cs, c.ID = k) → ∃ (j : Nat) (c : Category), cs[j]? = some c ∧ c.ID = k ∧
      (∀ j2 d, j < j2 → cs[j2]? = some d → d.ID ≠ k) ∧
      (buildIndex cs 0 []).get k = (j : Int)) ∧
    (∀ (j : Nat) (c : Category), cs[j]? = some c → c.ID = k →
      (∀ j2 d, j < j2 → cs[j2]? = some d → d.ID ≠ k) →
      (buildIndex cs 0 []).get k = (j : Int)) ∧
    ((cs.map Category.ID).Nodup → ∀ (j : Nat) (c : Category), cs[j]? = some c →
      c.ID = k → (buildIndex cs 0 []).get k = (j : Int)) ∧
    (∀ (i j : Nat) (c p : Category) (fuel : Nat), cs[i]? = some c → c.ParentID = k →
      k ≠ 0 → cs[j]? = some p → p.ID = k →
      (∀ j2 d, j < j2 → cs[j2]? = some d → d.ID ≠ k) →
      getFullCategoryName cs (buildIndex cs 0 []) (fuel + 1) (i : Int)
        = match getFullCategoryName cs (buildIndex cs 0 []) fuel (j : Int) with
          | Run.done s => Run.done (s ++ " > " ++ c.Name)
          | Run.panic msg => Run.panic msg
          | Run.outOfFuel => Run.outOfFuel) := by
  refine ⟨?_, ?_, ?_, ?_, ?_⟩
  · rw [buildIndex_has]
    simp [GoMap.has]
  · intro hpres
    obtain ⟨j, c, hj, hk, hget, hlast⟩ := buildIndex_get_present cs k hpres 0 []
    exact ⟨j, c, hj, hk, hlast, by simpa using hget⟩
  · exact fun j c hj hk hlast => buildIndex_get_greatest cs k j c hj hk hlast
  · intro hnodup j c hj hk
    refine buildIndex_get_greatest cs k j c hj hk ?_
    rw [← hk]
    exact nodup_ID_greatest cs hnodup j c hj
  · intro i j c p fuel hi hpar hk0 hj hpk hlast
    have hget := buildIndex_get_greatest cs k j p hj hpk hlast
    rw [getFullCategoryName, index_natCast, hi]
    simp only [hpar, hk0, if_false, hget]

/-- With the ID 1 carried by both `shoes` and `clogs`, the index answers 1
with the position of `clogs`, the later of the two, and `running` resolves
under `clogs`. -/
theorem buildIndex_duplicate_ID :
    (buildIndex [shoes, running, clogs] 0 []).get 1 = 2 ∧
    (buildIndex [shoes, running, clogs] 0 []).has 7 = false ∧
    getFullCategoryName [shoes, running, clogs] (buildIndex [shoes, running, clogs] 0 [])
      2 1 = Run.done "Clogs > Running" :=
  ⟨rfl, rfl, rfl⟩

/-! ## Cyclic hierarchies -/

theorem parentPos_periodic (cs : List Category) (m : GoMap) (i : Int) (a b : Nat)
    (hab : a < b) (hback : (parentPos cs m)^[b] i = (parentPos cs m)^[a] i) :
    ∀ k, ∃ k2, k2 < b ∧ (parentPos cs m)^[k] i = (parentPos cs m)^[k2] i := by
  intro k
  induction k with
  | zero => exact ⟨0, by omega, rfl⟩
  | succ k ih =>
    obtain ⟨k2, hk2, heq⟩ := ih
    by_cases hlast : k2 + 1 < b
    · exact ⟨k2 + 1, hlast, by
        rw [Function.iterate_succ_apply', Function.iterate_succ_apply', heq]⟩
    · have hb : k2 + 1 = b := by omega
      refine ⟨a, hab, ?_⟩
      rw [Function.iterate_succ_apply', heq, ← hback, ← hb, Function.iterate_succ_apply']

theorem getFullCategoryName_trapped (cs : List Category) (m : GoMap) (i : Int) (b : Nat)
    (hper : ∀ k, ∃ k2, k2 < b ∧ (parentPos cs m)^[k] i = (parentPos cs m)^[k2] i)
    (hnoroot : ∀ k, k < b →
      ∃ c, index cs ((parentPos cs m)^[k] i) = some c ∧ c.ParentID ≠ 0) :
    ∀ fuel k, getFullCategoryName cs m fuel ((parentPos cs m)^[k] i) = Run.outOfFuel := by
  intro fuel
  induction fuel with
  | zero => intro k; rfl
  | succ fuel ih =>
    intro k
    obtain ⟨k2, hk2, heq⟩ := hper k
    obtain ⟨c, hc, hne⟩ := hnoroot k2 hk2
    rw [← heq] at hc
    have hnext : m.get c.ParentID = (parentPos cs m)^[k + 1] i := by
      rw [Function.iterate_succ_apply']
      simp only [parentPos, hc]
    rw [getFullCategoryName]
    simp only [hc, hne, if_false, hnext, ih (k + 1)]

/-- C14: when the resolver's walk from position `i` comes back, at step `b`,
to the position it held at an earlier step `a`, and every position held before
step `b` carries an item with a non-zero `ParentID`, the name resolution of
position `i` yields no result, whatever the number of recursion steps granted. -/
theorem getFullCategoryName_cycle (cs : List Category) (i : Int) (a b : Nat)
    (hab : a < b)
    (hback : (parentPos cs (buildIndex cs 0 []))^[b] i
      = (parentPos cs (buildIndex cs 0 []))^[a] i)
    (hnoroot : ∀ k, k < b →
      ∃ c, index cs ((parentPos cs (buildIndex cs 0 []))^[k] i) = some c ∧ c.ParentID ≠ 0) :
    ∀ fuel, getFullCategoryName cs (buildIndex cs 0 []) fuel i = Run.outOfFuel :=
  fun fuel => getFullCategoryName_trapped cs _ i b
    (parentPos_periodic cs _ i a b hab hback) hnoroot fuel 0

/-- Witness of C14: `selfParent`, whose `ParentID` is its own ID. -/
theorem getFullCategoryName_cycle_witness :
    (0 : Nat) < 1 ∧
    (parentPos [selfParent] (buildIndex [selfParent] 0 []))^[1] 0
      = (parentPos [selfParent] (buildIndex [selfParent] 0 []))^[0] 0 ∧
    (∀ k, k < 1 → ∃ c,
      index [selfParent] ((parentPos [selfParent] (buildIndex [selfParent] 0 []))^[k] 0)
        = some c ∧ c.ParentID ≠ 0) ∧
    ∀ fuel, getFullCategoryName [selfParent] (buildIndex [selfParent] 0 []) fuel 0
      = Run.outOfFuel := by
  have hnoroot : ∀ k, k < 1 → ∃ c,
      index [selfParent] ((parentPos [selfParent] (buildIndex [selfParent] 0 []))^[k] 0)
        = some c ∧ c.ParentID ≠ 0 := by
    intro k hk
    obtain rfl : k = 0 := by omega
    exact ⟨selfParent, rfl, by decide⟩
  exact ⟨by decide, rfl, hnoroot,
    getFullCategoryName_cycle [selfParent] 0 0 1 (by decide) rfl hnoroot⟩

/-! ## Termination of the resolver -/

theorem length_le_of_nodup_lt (visited : List Nat) (n : Nat) (hnodup : visited.Nodup)
    (hlt : ∀ v ∈ visited, v < n) : visited.length ≤ n := by
  have hsub : visited ⊆ List.range n := fun v hv => List.mem_range.mpr (hlt v hv)
  have := (List.subperm_of_subset hnodup hsub).length_le
  simpa using this

/-- In a list without parent cycles and without dangling parents, the walk
from position `j` ends while positions not yet visited remain. -/
theorem getFullCategoryName_walk (cs : List Category)
    (hparents : ∀ c ∈ cs, c.ParentID ≠ 0 → ∃ p ∈ cs, p.ID = c.ParentID)
    (hacyclic : ∀ c, ¬ Relation.TransGen (IsParentOf cs) c c) :
    ∀ (fuel j : Nat) (c : Category) (visited : List Nat), cs[j]? = some c →
      visited.Nodup →
      (∀ v ∈ visited, ∃ cv, cs[v]? = some cv ∧ Relation.TransGen (IsParentOf cs) cv c) →
      cs.length ≤ visited.length + fuel →
      ∃ name, getFullCategoryName cs (buildIndex cs 0 []) fuel (j : Int) = Run.done name := by
  intro fuel
  induction fuel with
  | zero =>
    intro j c visited hj hnodup hvis hlen
    exfalso
    have hnot : j ∉ visited := by
      intro hmem
      obtain ⟨cv, hcv, htrans⟩ := hvis j hmem
      rw [hj] at hcv
      simp only [Option.some.injEq] at hcv
      subst hcv
      exact hacyclic c htrans
    have hbound := length_le_of_nodup_lt (j :: visited) cs.length
      (List.nodup_cons.mpr ⟨hnot, hnodup⟩) (by
        intro v hv
        rcases List.mem_cons.mp hv with h | h
        · rw [h]; exact (List.getElem?_eq_some.mp hj).1
        · obtain ⟨cv, hcv, _⟩ := hvis v h
          exact (List.getElem?_eq_some.mp hcv).1)
    simp only [List.length_cons] at hbound
    omega
  | succ fuel ih =>
    intro j c visited hj hnodup hvis hlen
    have hnot : j ∉ visited := by
      intro hmem
      obtain ⟨cv, hcv, htrans⟩ := hvis j hmem
      rw [hj] at hcv
      simp only [Option.some.injEq] at hcv
      subst hcv
      exact hacyclic c htrans
    rw [getFullCategoryName, index_natCast, hj]
    by_cases hroot : c.ParentID = 0
    · exact ⟨c.Name, by simp [hroot]⟩
    · have hc : c ∈ cs := List.getElem?_mem hj
      obtain ⟨j2, d, hj2, hd, hget, _⟩ :=
        buildIndex_get_present cs c.ParentID (hparents c hc hroot) 0 []
      have hstep : IsParentOf cs c d := ⟨hc, List.getElem?_mem hj2, hroot, hd⟩
      obtain ⟨name, hname⟩ := ih j2 d (j :: visited) hj2
        (List.nodup_cons.mpr ⟨hnot, hnodup⟩)
        (by
          intro v hv
          rcases List.mem_cons.mp hv with h | h
          · exact ⟨c, by rw [h]; exact hj, Relation.TransGen.single hstep⟩
          · obtain ⟨cv, hcv, htrans⟩ := hvis v h
            exact ⟨cv, hcv, Relation.TransGen.tail htrans hstep⟩)
        (by simp only [List.length_cons]; omega)
      simp only [Nat.zero_add] at hget
      exact ⟨name ++ " > " ++ c.Name, by simp only [hroot, if_false, hget, hname]⟩

/-- C13: in a list in which every non-zero `ParentID` is the ID of an item of
the list and the parent relation has no cycle, `getFullCategoryName` returns a
name from every in-range position within `cs.length` calls, the first one
counted, hence with any larger allowance too, and no call reads a position out
of range. Pairwise-distinct IDs are not needed for this. -/
theorem getFullCategoryName_terminates (cs : List Category)
    (hparents : ∀ c ∈ cs, c.ParentID ≠ 0 → ∃ p ∈ cs, p.ID = c.ParentID)
    (hacyclic : ∀ c, ¬ Relation.TransGen (IsParentOf cs) c c)
    (j : Nat) (c : Category) (hj : cs[j]? = some c) :
    (∃ name, ∀ fuel, cs.length ≤ fuel →
      getFullCategoryName cs (buildIndex cs 0 []) fuel (j : Int) = Run.done name) ∧
    ∀ fuel msg, getFullCategoryName cs (buildIndex cs 0 []) fuel (j : Int)
      ≠ Run.panic msg := by
  obtain ⟨name, hname⟩ := getFullCategoryName_walk cs hparents hacyclic cs.length j c []
    hj List.nodup_nil (fun v hv => absurd hv (List.not_mem_nil v)) (by simp)
  exact ⟨⟨name, fun fuel hf => getFullCategoryName_mono cs _ cs.length fuel _ name hf hname⟩,
    fun fuel msg => getFullCategoryName_no_panic cs fuel j c msg hj⟩

theorem transGen_rank_lt {α : Type} (r : α → α → Prop) (rank : α → Int)
    (hrank : ∀ x y, r x y → rank y < rank x) (x y : α) (h : Relation.TransGen r x y) :
    rank y < rank x := by
  induction h with
  | single hxy => exact hrank _ _ hxy
  | tail _ hyz ih => exact lt_trans (hrank _ _ hyz) ih

/-- Witness of C13: `running` under `shoes`. -/
theorem getFullCategoryName_terminates_witness :
    (∀ c ∈ [shoes, running], c.ParentID ≠ 0 → ∃ p ∈ [shoes, running], p.ID = c.ParentID) ∧
    (∀ c, ¬ Relation.TransGen (IsParentOf [shoes, running]) c c) ∧
    [shoes, running][1]? = some running ∧
    ((∃ name, ∀ fuel, [shoes, running].length ≤ fuel →
      getFullCategoryName [shoes, running] (buildIndex [shoes, running] 0 []) fuel
        ((1 : Nat) : Int) = Run.done name) ∧
    ∀ fuel msg, getFullCategoryName [shoes, running] (buildIndex [shoes, running] 0 []) fuel
      ((1 : Nat) : Int) ≠ Run.panic msg) := by
  have hparents : ∀ c ∈ [shoes, running], c.ParentID ≠ 0 →
      ∃ p ∈ [shoes, running], p.ID = c.ParentID := by
    intro c hc hne
    simp only [List.mem_cons, List.mem_singleton, List.not_mem_nil, or_false] at hc
    rcases hc with rfl | rfl
    · exact absurd rfl hne
    · exact ⟨shoes, by simp, rfl⟩
  have hrank : ∀ x y, IsParentOf [shoes, running] x y → y.ID < x.ID := by
    intro x y ⟨hx, _, hne, hid⟩
    simp only [List.mem_cons, List.mem_singleton, List.not_mem_nil, or_false] at hx
    rcases hx with rfl | rfl
    · exact absurd rfl hne
    · rw [hid]; decide
  have hacyclic : ∀ c, ¬ Relation.TransGen (IsParentOf [shoes, running]) c c :=
    fun c h => lt_irrefl _ (transGen_rank_lt _ Category.ID hrank c c h)
  exact ⟨hparents, hacyclic, rfl,
    getFullCategoryName_terminates [shoes, running] hparents hacyclic 1 running rfl⟩

/-! ## The sequence of fetcher calls -/

theorem pageLoop_next {σ : Type} (fetch : σ → Int → FetchResult × σ) (MaxRetries : Int)
    (fuel : Nat) (v : Vars σ) (hmore : v.more = true)
    (hok : (fetch v.world v.page).1.err = none) :
    pageLoop fetch MaxRetries (fuel + 1) v = pageLoop fetch MaxRetries fuel (nextVars fetch v) := by
  rw [pageLoop]
  simp only [hmore, if_true, hok, nextVars]

/-- Every state of `Visits` is a state the loop function passes through. -/
theorem Visits.pageLoop_eq {σ : Type} {fetch : σ → Int → FetchResult × σ}
    {v0 v : Vars σ} (h : Visits fetch v0 v) (MaxRetries : Int) :
    ∃ n, ∀ fuel, pageLoop fetch MaxRetries (fuel + n) v0 = pageLoop fetch MaxRetries fuel v := by
  induction h with
  | start => exact ⟨0, fun _ => rfl⟩
  | next v _ hmore hok ih =>
    obtain ⟨n, hn⟩ := ih
    refine ⟨n + 1, fun fuel => ?_⟩
    have : fuel + (n + 1) = (fuel + 1) + n := by omega
    rw [this, hn, pageLoop_next fetch MaxRetries fuel v hmore hok]

theorem Visits.retries_eq {σ : Type} {fetch : σ → Int → FetchResult × σ}
    {v0 v : Vars σ} (h : Visits fetch v0 v) : v.retries = v0.retries := by
  induction h with
  | start => rfl
  | next v _ _ _ ih => simpa [nextVars] using ih

theorem wrapInt_wrapInt_succ (x : Int) : wrapInt (wrapInt x + 1) = wrapInt (x + 1) := by
  unfold wrapInt
  omega

theorem wrapInt_of_lt (x : Int) (h0 : 0 ≤ x) (h1 : x < 2 ^ 63) : wrapInt x = x := by
  unfold wrapInt
  omega

theorem calls_append_post (calls : List Call) (page : Int) (r : FetchResult)
    (hinv : ∀ (k : Nat) (c : Call), calls[k]? = some c →
      c.page = wrapInt ((k : Int) + 1) ∧ c.result.err = none ∧ c.result.more = true)
    (hpage : page = wrapInt ((calls.length : Int) + 1)) :
    ∀ (k : Nat) (c : Call), (calls ++ [Call.mk page r])[k]? = some c →
      c.page = wrapInt ((k : Int) + 1) ∧
      (k + 1 < (calls ++ [Call.mk page r]).length →
        c.result.err = none ∧ c.result.more = true) := by
  intro k c hk
  by_cases hlt : k < calls.length
  · rw [List.getElem?_append_left hlt] at hk
    obtain ⟨h1, h2, h3⟩ := hinv k c hk
    exact ⟨h1, fun _ => ⟨h2, h3⟩⟩
  · have hlen := (List.getElem?_eq_some.mp hk).1
    simp only [List.length_append, List.length_singleton] at hlen
    have hkl : k = calls.length := by omega
    subst hkl
    simp only [List.getElem?_concat_length, Option.some.injEq] at hk
    subst hk
    refine ⟨hpage, fun h => ?_⟩
    simp only [List.length_append, List.length_singleton] at h
    omega

theorem pageLoop_calls {σ : Type} (fetch : σ → Int → FetchResult × σ)
    (MaxRetries : Int) (fuel : Nat) :
    ∀ (v : Vars σ) (exit : LoopExit σ),
      (∀ (k : Nat) (c : Call), v.calls[k]? = some c →
        c.page = wrapInt ((k : Int) + 1) ∧ c.result.err = none ∧ c.result.more = true) →
      v.page = wrapInt ((v.calls.length : Int) + 1) →
      pageLoop fetch MaxRetries fuel v = Run.done exit →
      ∀ (k : Nat) (c : Call), exit.out.calls[k]? = some c →
        c.page = wrapInt ((k : Int) + 1) ∧
        (k + 1 < exit.out.calls.length → c.result.err = none ∧ c.result.more = true) := by
  induction fuel with
  | zero => intro v exit _ _ h; simp [pageLoop] at h
  | succ fuel ih =>
    intro v exit hinv hpage h
    rw [pageLoop] at h
    by_cases hmore : v.more = true
    · simp only [hmore, if_true] at h
      cases hr : (fetch v.world v.page).1.err with
      | some e =>
        rw [hr] at h
        simp only at h
        split at h
        · simp only [Run.done.injEq] at h
          subst h
          exact calls_append_post v.calls v.page _ hinv hpage
        · simp only [Run.done.injEq] at h
          subst h
          exact calls_append_post v.calls v.page _ hinv hpage
      | none =>
        rw [hr] at h
        simp only at h
        have hpost := calls_append_post v.calls v.page (fetch v.world v.page).1 hinv hpage
        by_cases hm : (fetch v.world v.page).1.more = true
        · refine ih _ exit ?_ ?_ h
          · intro k c hk
            obtain ⟨h1, h2⟩ := hpost k c hk
            refine ⟨h1, ?_⟩
            by_cases hlt : k + 1 < (v.calls ++ [Call.mk v.page (fetch v.world v.page).1]).length
            · exact h2 hlt
            · have hlen := (List.getElem?_eq_some.mp hk).1
              simp only [List.length_append, List.length_singleton] at hlen hlt
              have hkl : k = v.calls.length := by omega
              subst hkl
              simp only [List.getElem?_concat_length, Option.some.injEq] at hk
              subst hk
              exact ⟨hr, hm⟩
          · simp only [List.length_append, List.length_singleton, Nat.cast_add, Nat.cast_one]
            rw [hpage, wrapInt_wrapInt_succ]
        · cases fuel with
          | zero => simp [pageLoop] at h
          | succ fuel =>
            rw [pageLoop] at h
            simp only [hm, Bool.false_eq_true, if_false, Run.done.injEq] at h
            subst h
            exact hpost
    · simp only [hmore] at h
      simp only [Bool.false_eq_true, if_false, Run.done.injEq] at h
      subst h
      intro k c hk
      obtain ⟨h1, h2, h3⟩ := hinv k c hk
      exact ⟨h1, fun _ => ⟨h2, h3⟩⟩

theorem pages_eq_pageNumbers (calls : List Call)
    (hm : (calls.length : Int) < 2 ^ 63)
    (hpages : ∀ (k : Nat) (c : Call), calls[k]? = some c → c.page = wrapInt ((k : Int) + 1)) :
    calls.map Call.page = pageNumbers calls.length := by
  apply List.ext_getElem?
  intro k
  unfold pageNumbers
  rw [List.getElem?_map, List.getElem?_map]
  by_cases hk : k < calls.length
  · rw [List.getElem?_range' 1 1 hk, List.getElem?_eq_getElem hk]
    simp only [Option.map_some', Option.some.injEq]
    rw [hpages k _ (List.getElem?_eq_getElem hk), wrapInt_of_lt _ (by omega) (by omega)]
    push_cast
    omega
  · rw [List.getElem?_eq_none (by omega), List.getElem?_eq_none (by simp; omega)]
    rfl

theorem pageNumbers_nodup (n : Nat) : (pageNumbers n).Nodup :=
  (List.nodup_range' 1 n).map Nat.cast_injective

theorem GetAllCategoriesVia_calls {σ : Type} (fetch : σ → Int → FetchResult × σ)
    (MaxRetries : Int) (fuel : Nat) (s : σ) (exit : LoopExit σ) (out : Outcome σ)
    (hloop : pageLoop fetch MaxRetries fuel (initVars s) = Run.done exit)
    (hrun : GetAllCategoriesVia fetch MaxRetries fuel s = Run.done out) :
    out.calls = exit.out.calls := by
  unfold GetAllCategoriesVia at hrun
  rw [hloop] at hrun
  cases exit with
  | returned o =>
    simp only [Run.done.injEq] at hrun
    subst hrun
    rfl
  | fellOut o =>
    simp only at hrun
    cases hpost : postProcess fuel o.cs with
    | panic msg => rw [hpost] at hrun; simp at hrun
    | outOfFuel => rw [hpost] at hrun; simp at hrun
    | done cs =>
      rw [hpost] at hrun
      simp only [Run.done.injEq] at hrun
      subst hrun
      rfl

/-- C11: let the loop of `GetAllCategories` be left after `m` fetcher calls,
`m` a Go `int`. Then the pages requested are exactly `1, 2, ..., m` in this
order, none of them twice; every call but the last returned no error and
`more = true`, so no call follows an error or a `more = false` answer; the retry
counter is 0 at every entry of the loop body and 1 once incremented; and a run
that returns has made exactly these calls. -/
theorem pageLoop_no_same_page_retry {σ : Type} (fetch : σ → Int → FetchResult × σ)
    (MaxRetries : Int) (fuel : Nat) (s : σ) (exit : LoopExit σ)
    (hloop : pageLoop fetch MaxRetries fuel (initVars s) = Run.done exit)
    (hm : (exit.out.calls.length : Int) < 2 ^ 63) :
    exit.out.calls.map Call.page = pageNumbers exit.out.calls.length ∧
    (exit.out.calls.map Call.page).Nodup ∧
    (∀ (k : Nat) (c : Call), exit.out.calls[k]? = some c →
      k + 1 < exit.out.calls.length → c.result.err = none ∧ c.result.more = true) ∧
    (∀ v, Visits fetch (initVars s) v → v.retries = 0 ∧ wrapInt (v.retries + 1) = 1) ∧
    (∀ out, GetAllCategoriesVia fetch MaxRetries fuel s = Run.done out →
      out.calls = exit.out.calls) := by
  have hpost := pageLoop_calls fetch MaxRetries fuel (initVars s) exit
    (by intro k c hk; simp [initVars] at hk)
    (by simp only [initVars, List.length_nil, Nat.cast_zero]; exact wrapInt_one.symm) hloop
  have hpages := pages_eq_pageNumbers exit.out.calls hm (fun k c hk => (hpost k c hk).1)
  refine ⟨hpages, ?_, fun k c hk hlt => (hpost k c hk).2 hlt, fun v hv => ?_,
    fun out hrun => GetAllCategoriesVia_calls fetch MaxRetries fuel s exit out hloop hrun⟩
  · rw [hpages]; exact pageNumbers_nodup _
  · have h0 : v.retries = 0 := hv.retries_eq
    exact ⟨h0, by rw [h0]; exact wrapInt_one⟩

/-- Witness of C11: the loop over `pageThenFail` with `MaxRetries = 1`, left by
the `break` after the calls for pages 1 and 2. -/
theorem pageLoop_no_same_page_retry_witness :
    pageLoop pageThenFail 1 3 (initVars 0) = Run.done brokenExit ∧
    ((brokenExit.out.calls.length : Int) < 2 ^ 63) ∧
    (brokenExit.out.calls.map Call.page = pageNumbers brokenExit.out.calls.length ∧
    (brokenExit.out.calls.map Call.page).Nodup ∧
    (∀ (k : Nat) (c : Call), brokenExit.out.calls[k]? = some c →
      k + 1 < brokenExit.out.calls.length → c.result.err = none ∧ c.result.more = true) ∧
    (∀ v, Visits pageThenFail (initVars 0) v →
      v.retries = 0 ∧ wrapInt (v.retries + 1) = 1) ∧
    (∀ out, GetAllCategoriesVia pageThenFail 1 3 0 = Run.done out →
      out.calls = brokenExit.out.calls)) :=
  ⟨rfl, by decide, pageLoop_no_same_page_retry pageThenFail 1 3 0 brokenExit rfl (by decide)⟩

end bigcommerce
